import Mathlib

/-!
Verification development for the `analyzeMOPS` repository (`analyzeMOPS/io.py`).

The file embeds, as executable Lean definitions, the functions of `io.py` that
the claims are about:

* `_findNewLinesAndDeletedIndices` (line diffing of two linkage files via
  `difflib.unified_diff(..., n=0)` and a hand written parse of the hunks),
* `_makeNewLinkageDataFrames` (turning added lines into a members relation and
  a summary relation),
* `attachDatabases`,
* `buildTrackletDatabase` / `buildTrackDatabase` (CREATE TABLE / CREATE VIEW
  statement sequences, and the module level name environment used to resolve
  the identifier `sql`).

A file is modelled as the list of its lines, each line given without its
terminating newline; `readlines` re-attaches the `"\n"` exactly as
`file.readlines()` does for a newline terminated text file.  The relevant
parts of the CPython `difflib` module (`SequenceMatcher.find_longest_match`,
`get_matching_blocks`, `get_opcodes`, `get_grouped_opcodes`, `unified_diff`,
including the autojunk popularity heuristic) are embedded step by step; loops
are written as structural recursions, with an explicit fuel argument where the
Python loop is a while loop or a work queue (a fuel large enough to be
unreachable is supplied at the call site, and the proofs establish the facts
needed about the fueled runs).
-/

namespace AnalyzeMOPS

/-! ### Python string primitives (character list based, so they evaluate) -/

/-- The six characters `str.split()` treats as whitespace (ASCII). -/
def pyIsSpace (c : Char) : Bool :=
  c = ' ' || c = '\t' || c = '\n' || c = '\r' || c = '\x0b' || c = '\x0c'

/-- Split a character list at whitespace characters, keeping empty pieces
(one piece per maximal run boundary).  Helper for `pySplitWs`. -/
def splitWsAll : List Char → List (List Char)
  | [] => [[]]
  | c :: cs =>
    match splitWsAll cs with
    | t :: ts => if pyIsSpace c then [] :: t :: ts else (c :: t) :: ts
    | [] => [[]]

/-- Python `s.split()` (no argument): split on whitespace runs, no empty
tokens. -/
def pySplitWs (s : String) : List String :=
  ((splitWsAll s.data).filter (· ≠ [])).map fun cs => String.mk cs

/-- Split a character list at one separator character, keeping empty pieces:
the semantics of Python `s.split(sep)` with a one character separator. -/
def splitCharAll (sep : Char) : List Char → List (List Char)
  | [] => [[]]
  | c :: cs =>
    match splitCharAll sep cs with
    | t :: ts => if c = sep then [] :: t :: ts else (c :: t) :: ts
    | [] => [[]]

/-- Python `s.split(",")`. -/
def pySplitComma (s : String) : List String :=
  (splitCharAll ',' s.data).map fun cs => String.mk cs

/-- Python `s.split(" ")` (single space separator, empty tokens kept;
`"".split(" ") = [""]`). -/
def pySplitSpace (s : String) : List String :=
  (splitCharAll ' ' s.data).map fun cs => String.mk cs

/-- Decimal digit character for a value below ten. -/
def digitChar : Nat → Char
  | 0 => '0'
  | 1 => '1'
  | 2 => '2'
  | 3 => '3'
  | 4 => '4'
  | 5 => '5'
  | 6 => '6'
  | 7 => '7'
  | 8 => '8'
  | _ => '9'

/-- Fueled most-significant-first decimal digit list (the fuel is always
sufficient because `pyStr` passes `n + 1` and each step divides by ten). -/
def natDigitsAux : Nat → Nat → List Char
  | 0, _ => []
  | fuel + 1, n => if n < 10 then [digitChar n] else natDigitsAux fuel (n / 10) ++ [digitChar (n % 10)]

/-- Python `str(n)` for a natural number. -/
def pyStr (n : Nat) : String := String.mk (natDigitsAux (n + 1) n)

/-- Python `int(s)` on a decimal digit string, as the usual left fold.
(The source only ever applies `int` to the digit strings produced by the
unified diff range formatter, so the error path of `int` never arises.) -/
def pyIntChars (cs : List Char) : Nat :=
  cs.foldl (fun a c => a * 10 + (c.toNat - 48)) 0

/-- Python `int(s)` (digit strings only, see `pyIntChars`). -/
def pyInt (s : String) : Nat := pyIntChars s.data

/-- Python `s[1:]`. -/
def pySlice1 (s : String) : String := String.mk (s.data.drop 1)

/-- Python `s[1:-2]`: drop the first character and the last two. -/
def pySlice1m2 (s : String) : String := String.mk ((s.data.drop 1).dropLast.dropLast)

/-- Python `xs[i1:i2]` on a list, for `i1 ≤ i2` (clamped at the ends). -/
def pySliceList (l : List String) (i1 i2 : Nat) : List String := (l.take i2).drop i1

/-! ### The difflib embedding

`_findNewLinesAndDeletedIndices` feeds `file.readlines()` of both files to
`difflib.unified_diff(a, b, n=0)`.  The yielded diff lines are fully
determined by `SequenceMatcher(None, a, b)`; its pieces are embedded here.
-/

/-- `file.readlines()` for a newline terminated text file modelled as its
list of line contents. -/
def readlines (f : List String) : List String := f.map (· ++ "\n")

/-- Result triple of `SequenceMatcher.find_longest_match`. -/
structure FLM where
  besti : Nat
  bestj : Nat
  bestsize : Nat
deriving DecidableEq, Repr

/-- `SequenceMatcher.__chain_b`: the map from an element to the ascending list
of its positions in `b`, with the autojunk popularity heuristic: when `b` has
at least 200 elements, an element occurring more than `len(b)/100 + 1` times
is dropped from the map entirely. -/
def b2j (b : List String) (x : String) : List Nat :=
  let idxs := (List.range b.length).filter fun j => b.getD j "" = x
  if 200 ≤ b.length ∧ b.length / 100 + 1 < idxs.length then [] else idxs

/-- Inner loop of `find_longest_match` over `b2j.get(a[i], [])`: builds the
new `j2len` row and updates the running best match.  `prev` is the previous
row (`j2len.get(j-1, 0)` is `0` at `j = 0`, matching the Python lookup of the
absent key `-1`).  The Python `i-k+1` / `j-k+1` are written `i+1-k` / `j+1-k`;
they agree because a row value never exceeds its row or column index plus one
(established by the `rowInv` invariant lemmas below). -/
def flmInner (blo bhi i : Nat) (prev : Nat → Nat) :
    List Nat → (Nat → Nat) → FLM → ((Nat → Nat) × FLM)
  | [], cur, best => (cur, best)
  | j :: js, cur, best =>
    if j < blo then flmInner blo bhi i prev js cur best
    else if bhi ≤ j then (cur, best)
    else
      let k := (match j with | 0 => 0 | j0 + 1 => prev j0) + 1
      let cur1 := fun j1 => if j1 = j then k else cur j1
      let best1 := if best.bestsize < k then FLM.mk (i + 1 - k) (j + 1 - k) k else best
      flmInner blo bhi i prev js cur1 best1

/-- Outer loop of `find_longest_match` over `i in range(alo, ahi)`. -/
def flmOuter (bj : String → List Nat) (a : List String) (blo bhi : Nat) :
    List Nat → (Nat → Nat) → FLM → FLM
  | [], _, best => best
  | i :: is, j2len, best =>
    let p := flmInner blo bhi i j2len (bj (a.getD i "")) (fun _ => 0) best
    flmOuter bj a blo bhi is p.1 p.2

/-- The backward extension while loop of `find_longest_match` (the junk set is
empty because the matcher is created with `isjunk=None`, so the `isbjunk`
tests are vacuous and the second pair of junk extension loops never runs).
Fuel `m.besti` always suffices since `besti` decreases by one per step. -/
def extendBack (a b : List String) (alo blo : Nat) : Nat → FLM → FLM
  | 0, m => m
  | fuel + 1, m =>
    if alo < m.besti ∧ blo < m.bestj ∧ a.getD (m.besti - 1) "" = b.getD (m.bestj - 1) "" then
      extendBack a b alo blo fuel (FLM.mk (m.besti - 1) (m.bestj - 1) (m.bestsize + 1))
    else m

/-- The forward extension while loop of `find_longest_match`.  Fuel `ahi`
always suffices since `besti + bestsize` grows by one per step and stays below
`ahi`. -/
def extendFwd (a b : List String) (ahi bhi : Nat) : Nat → FLM → FLM
  | 0, m => m
  | fuel + 1, m =>
    if m.besti + m.bestsize < ahi ∧ m.bestj + m.bestsize < bhi ∧
        a.getD (m.besti + m.bestsize) "" = b.getD (m.bestj + m.bestsize) "" then
      extendFwd a b ahi bhi fuel (FLM.mk m.besti m.bestj (m.bestsize + 1))
    else m

/-- `SequenceMatcher.find_longest_match(alo, ahi, blo, bhi)`. -/
def findLongestMatch (a b : List String) (alo ahi blo bhi : Nat) : FLM :=
  let best := flmOuter (b2j b) a blo bhi (List.range' alo (ahi - alo)) (fun _ => 0) (FLM.mk alo blo 0)
  let best := extendBack a b alo blo best.besti best
  extendFwd a b ahi bhi ahi best

/-- A matching block `(i, j, size)`. -/
structure Blk where
  ai : Nat
  bj : Nat
  size : Nat
deriving DecidableEq, Repr

/-- Lexicographic order on blocks: the order `list.sort()` uses on the
Python triples. -/
def blkLE (x y : Blk) : Prop :=
  x.ai < y.ai ∨ (x.ai = y.ai ∧ (x.bj < y.bj ∨ (x.bj = y.bj ∧ x.size ≤ y.size)))

instance : DecidableRel blkLE := fun x y => by unfold blkLE; infer_instance

/-- The work queue loop of `get_matching_blocks`.  The Python queue pops from
its end; the list here stores the queue reversed (head = Python end), so a pop
is a head match and the two children pushed by Python in the order
`(alo,i,blo,j)` then `(i+k,ahi,j+k,bhi)` are consed in the opposite order.
Each iteration strictly decreases `(sum of interval lengths) + (queue
length)`, so the fuel supplied by `getMatchingBlocks` is never exhausted. -/
def gmbFuel (a b : List String) : Nat → List (Nat × Nat × Nat × Nat) → List Blk → List Blk
  | 0, _, acc => acc
  | _ + 1, [], acc => acc
  | fuel + 1, (alo, ahi, blo, bhi) :: rest, acc =>
    let m := findLongestMatch a b alo ahi blo bhi
    if m.bestsize ≠ 0 then
      let rest1 := if alo < m.besti ∧ blo < m.bestj then (alo, m.besti, blo, m.bestj) :: rest else rest
      let rest2 := if m.besti + m.bestsize < ahi ∧ m.bestj + m.bestsize < bhi then
          (m.besti + m.bestsize, ahi, m.bestj + m.bestsize, bhi) :: rest1 else rest1
      gmbFuel a b fuel rest2 (acc ++ [Blk.mk m.besti m.bestj m.bestsize])
    else
      gmbFuel a b fuel rest acc

/-- The merge pass at the end of `get_matching_blocks`: adjacent blocks are
coalesced, the running block is emitted when nonempty. -/
def mergeAdj : Blk → List Blk → List Blk
  | cur, [] => if cur.size ≠ 0 then [cur] else []
  | cur, blk :: rest =>
    if cur.ai + cur.size = blk.ai ∧ cur.bj + cur.size = blk.bj then
      mergeAdj (Blk.mk cur.ai cur.bj (cur.size + blk.size)) rest
    else (if cur.size ≠ 0 then [cur] else []) ++ mergeAdj blk rest

/-- `SequenceMatcher.get_matching_blocks()`: run the queue, sort the found
blocks lexicographically, merge adjacent ones, and append the terminal
`(len(a), len(b), 0)` sentinel. -/
def getMatchingBlocks (a b : List String) : List Blk :=
  let raw := gmbFuel a b (a.length + b.length + 1) [(0, a.length, 0, b.length)] []
  mergeAdj (Blk.mk 0 0 0) (List.insertionSort blkLE raw) ++ [Blk.mk a.length b.length 0]

/-- Opcode tags of `get_opcodes`. -/
inductive Tag
  | replace
  | delete
  | insert
  | equal
deriving DecidableEq, Repr

/-- An opcode `(tag, i1, i2, j1, j2)`. -/
structure Opcode where
  tag : Tag
  i1 : Nat
  i2 : Nat
  j1 : Nat
  j2 : Nat
deriving DecidableEq, Repr

/-- Cursor walk of `get_opcodes` over the matching blocks. -/
def getOpcodesGo : Nat → Nat → List Blk → List Opcode
  | _, _, [] => []
  | i, j, blk :: rest =>
    let gap : List Opcode :=
      if i < blk.ai ∧ j < blk.bj then [⟨Tag.replace, i, blk.ai, j, blk.bj⟩]
      else if i < blk.ai then [⟨Tag.delete, i, blk.ai, j, blk.bj⟩]
      else if j < blk.bj then [⟨Tag.insert, i, blk.ai, j, blk.bj⟩]
      else []
    let eq : List Opcode :=
      if blk.size ≠ 0 then [⟨Tag.equal, blk.ai, blk.ai + blk.size, blk.bj, blk.bj + blk.size⟩]
      else []
    gap ++ eq ++ getOpcodesGo (blk.ai + blk.size) (blk.bj + blk.size) rest

/-- `SequenceMatcher.get_opcodes()`. -/
def getOpcodes (a b : List String) : List Opcode := getOpcodesGo 0 0 (getMatchingBlocks a b)

/-- Placeholder opcode used for head and last lookups on lists that are
provably nonempty at the use sites. -/
def dummyOp : Opcode := ⟨Tag.equal, 0, 0, 0, 0⟩

/-- `get_grouped_opcodes`: shrink a leading equal opcode to its last `n`
lines. -/
def adjustFirst (n : Nat) : List Opcode → List Opcode
  | [] => []
  | c :: cs =>
    if c.tag = Tag.equal then ⟨c.tag, max c.i1 (c.i2 - n), c.i2, max c.j1 (c.j2 - n), c.j2⟩ :: cs
    else c :: cs

/-- `get_grouped_opcodes`: shrink a trailing equal opcode to its first `n`
lines. -/
def adjustLast (n : Nat) : List Opcode → List Opcode
  | [] => []
  | [c] =>
    if c.tag = Tag.equal then [⟨c.tag, c.i1, min c.i2 (c.i1 + n), c.j1, min c.j2 (c.j1 + n)⟩]
    else [c]
  | c :: cs => c :: adjustLast n cs

/-- Main loop of `get_grouped_opcodes`: a large equal opcode closes the
current group (with a shrunk copy appended) and opens the next one. -/
def groupedLoop (n : Nat) : List Opcode → List Opcode → List (List Opcode) → List (List Opcode)
  | [], group, out =>
    if group ≠ [] ∧ ¬(group.length = 1 ∧ (group.headD dummyOp).tag = Tag.equal) then out ++ [group]
    else out
  | c :: cs, group, out =>
    if c.tag = Tag.equal ∧ n + n < c.i2 - c.i1 then
      groupedLoop n cs [⟨Tag.equal, max c.i1 (c.i2 - n), c.i2, max c.j1 (c.j2 - n), c.j2⟩]
        (out ++ [group ++ [⟨Tag.equal, c.i1, min c.i2 (c.i1 + n), c.j1, min c.j2 (c.j1 + n)⟩]])
    else groupedLoop n cs (group ++ [c]) out

/-- `SequenceMatcher.get_grouped_opcodes(n)` (the empty opcode list is
replaced by a unit equal opcode, then the two boundary adjustments run). -/
def groupedOpcodes (n : Nat) (a b : List String) : List (List Opcode) :=
  let codes0 := getOpcodes a b
  let codes1 := if codes0 = [] then [⟨Tag.equal, 0, 1, 0, 1⟩] else codes0
  groupedLoop n (adjustLast n (adjustFirst n codes1)) [] []

/-- `difflib._format_range_unified`. -/
def formatRangeUnified (start stop : Nat) : String :=
  let len := stop - start
  if len = 1 then pyStr (start + 1)
  else pyStr (if len = 0 then start else start + 1) ++ "," ++ pyStr len

/-- The body lines `unified_diff` yields for one opcode. -/
def renderOpcode (a b : List String) (c : Opcode) : List String :=
  match c.tag with
  | Tag.equal => (pySliceList a c.i1 c.i2).map (fun line => " " ++ line)
  | Tag.replace =>
      (pySliceList a c.i1 c.i2).map (fun line => "-" ++ line) ++
      (pySliceList b c.j1 c.j2).map (fun line => "+" ++ line)
  | Tag.delete => (pySliceList a c.i1 c.i2).map (fun line => "-" ++ line)
  | Tag.insert => (pySliceList b c.j1 c.j2).map (fun line => "+" ++ line)

/-- The hunk `unified_diff` yields for one group: the `@@` header built from
the first and last opcode of the group, then the body lines. -/
def renderGroup (a b : List String) (g : List Opcode) : List String :=
  let first := g.headD dummyOp
  let last := g.getLastD dummyOp
  ("@@ -" ++ formatRangeUnified first.i1 last.i2 ++ " +" ++ formatRangeUnified first.j1 last.j2
      ++ " @@\n") :: g.flatMap (renderOpcode a b)

/-- `list(difflib.unified_diff(a, b, n=0))` with the default empty file names
and dates: the two `---` / `+++` header lines are yielded once before the
first group, and nothing at all when there is no group. -/
def unifiedDiff (a b : List String) : List String :=
  let groups := groupedOpcodes 0 a b
  if groups = [] then [] else "--- \n" :: "+++ \n" :: groups.flatMap (renderGroup a b)

/-! ### `_findNewLinesAndDeletedIndices` -/

/-- The `for line in udiff[2:]` loop of `_findNewLinesAndDeletedIndices`.
The two running counters start undefined (`none`) exactly as the Python local
variables do; a body line before any hunk header would raise a `NameError`
(`.error`), and a diff line whose `split()` is empty would raise an
`IndexError` on `line_elements[0]` (`.error`).  Neither happens on the diffs
the renderer produces for well formed files.  `deleted_lines` collects the
raw removed diff lines but is not part of the Python return value. -/
def parseUdiff : List String → Option Nat → Option Nat →
    List String → List Nat → List String → List Nat →
    Except String (List String × List Nat × List Nat)
  | [], _, _, nl, nn, _, dn => .ok (nl, nn, dn)
  | line :: rest, f1, f2, nl, nn, dl, dn =>
    match pySplitWs line with
    | [] => .error "IndexError: list index out of range"
    | e0 :: es =>
      if e0 = "@@" then
        match es with
        | e1 :: e2 :: _ =>
          parseUdiff rest (some (pyInt (pySlice1 ((pySplitComma e1).headD ""))))
            (some (pyInt (pySlice1 ((pySplitComma e2).headD "")))) nl nn dl dn
        | _ => .error "IndexError: list index out of range"
      else
        match e0.data with
        | [] => .error "IndexError: string index out of range"
        | ch :: _ =>
          if ch = '+' then
            match f2 with
            | none => .error "NameError: name file2_index is not defined"
            | some v => parseUdiff rest f1 (some (v + 1)) (nl ++ [pySlice1m2 line]) (nn ++ [v]) dl dn
          else if ch = '-' then
            match f1 with
            | none => .error "NameError: name file1_index is not defined"
            | some v => parseUdiff rest (some (v + 1)) f2 nl nn (dl ++ [line]) (dn ++ [v])
          else parseUdiff rest f1 f2 nl nn dl dn

/-- `_findNewLinesAndDeletedIndices(file1, file2)`: diff the two files with
zero context and parse the hunks.  Returns the added line texts (each one the
`line[1:-2]` slice of a `+` diff line), their one based line numbers in file
two, and the one based line numbers of lines deleted from file one. -/
def findNewLinesAndDeletedIndices (file1 file2 : List String) :
    Except String (List String × List Nat × List Nat) :=
  let udiff := unifiedDiff (readlines file1) (readlines file2)
  parseUdiff (udiff.drop 2) none none [] [] [] []

/-! ### `_makeNewLinkageDataFrames` -/

/-- First-occurrence distinct values of a list: the semantics of pandas
`Series.unique()`. -/
def pdUniqueGo : List Int → List Int → List Int
  | _, [] => []
  | seen, x :: xs => if x ∈ seen then pdUniqueGo seen xs else x :: pdUniqueGo (seen ++ [x]) xs

/-- pandas `Series.unique()` (first-occurrence order). -/
def pdUnique (l : List Int) : List Int := pdUniqueGo [] l

/-- `_makeNewLinkageDataFrames(newLines, linkageType, createdBy, idStart)`.

* `ids = np.arange(idStart, idStart + len(newLines))` assigns consecutive
  integer linkage ids to the lines in order;
* each line is split on single spaces and stacked into `(id, token)` rows
  (`DataFrame(...).stack()` drops the padding of short rows but keeps empty
  string tokens);
* `replace("", nan)` + `dropna()` removes the empty tokens;
* the summary frame pairs `unique()` of the surviving ids (first-occurrence
  order) positionally with `value_counts().sort_index().values` (counts in
  ascending id order), then adds the constant `createdBy` column and the zero
  `deletedBy` column.

The members relation rows are `(linkageId, diaId)` with the diaId kept as the
token string; the summary rows are
`(linkageId, numMembers, createdBy, deletedBy)`.  The `linkageType` argument
only names the id column in pandas and does not influence the data. -/
def makeNewLinkageDataFrames (newLines : List String) (linkageType : String) (createdBy : Int)
    (idStart : Int) : List (Int × String) × List (Int × Nat × Int × Int) :=
  let _ := linkageType
  let ids : List Int := (List.range newLines.length).map fun k : Nat => idStart + (k : Int)
  let tokenLists : List (List String) := newLines.map pySplitSpace
  let stacked : List (Int × String) := (ids.zip tokenLists).flatMap fun p => p.2.map fun t => (p.1, t)
  let linkageMembers := stacked.filter fun r => r.2 ≠ ""
  let uniq := pdUnique (linkageMembers.map Prod.fst)
  let counts := (List.insertionSort (· ≤ ·) uniq).map fun v => (linkageMembers.map Prod.fst).count v
  let allLinkages := (uniq.zip counts).map fun p => (p.1, p.2, createdBy, (0 : Int))
  (linkageMembers, allLinkages)

/-- Closed form of the members relation built by `_makeNewLinkageDataFrames`:
line `k` of `lines` contributes one `(s + k, token)` row per nonempty token,
in token order, so consecutive integer ids starting at `s` are consumed in
line order. -/
def memberRows : List String → Int → List (Int × String)
  | [], _ => []
  | l :: ls, s => ((pySplitSpace l).filter (· ≠ "")).map (fun tok => (s, tok)) ++ memberRows ls (s + 1)

/-! ### `attachDatabases` -/

/-- `attachDatabases(con, databases)`: at most ten databases are attached; a
longer list is truncated to its first ten entries with two printed warning
lines.  The function returns the attached names `db0, db1, ...`; the model
also returns the warning lines printed to stdout (the `ATTACH DATABASE`
statements executed on the connection carry no further information than the
names). -/
def attachDatabases (databases : List String) : List String × List String :=
  let warn : List String :=
    if 10 < databases.length then
      ["Warning: Cannot attach more than 10 databases...",
       "Proceeding with the first 10 databases..."]
    else []
  let kept := if 10 < databases.length then databases.take 10 else databases
  let attachedNames := (List.range kept.length).map fun i => "db" ++ pyStr i
  (attachedNames, warn)

/-! ### `buildTrackletDatabase` / `buildTrackDatabase` -/

/-- WHERE clause of a `CREATE VIEW` statement over the ledger table, as
written in the SQL text of `io.py`. -/
inductive SqlCond
  | createdByEq : Int → SqlCond
  | deletedByEq : Int → SqlCond
  | orCond : SqlCond → SqlCond → SqlCond
deriving DecidableEq, Repr

/-- A view is a pure filter: evaluate its WHERE clause on the `createdBy` and
`deletedBy` columns of a ledger row. -/
def evalCond : SqlCond → Int → Int → Bool
  | SqlCond.createdByEq n, c, _ => c = n
  | SqlCond.deletedByEq n, _, d => d = n
  | SqlCond.orCond x y, c, d => evalCond x c d || evalCond y c d

/-- The four `CREATE VIEW` statements of `buildTrackletDatabase`, in source
order, each as (view name, WHERE clause over `AllTracklets`). -/
def trackletViews : List (String × SqlCond) :=
  [("Tracklets", SqlCond.createdByEq 1),
   ("CollapsedTracklets", SqlCond.orCond (SqlCond.deletedByEq 2) (SqlCond.createdByEq 2)),
   ("PurifiedTracklets", SqlCond.orCond (SqlCond.deletedByEq 3) (SqlCond.createdByEq 3)),
   ("FinalTracklets", SqlCond.orCond (SqlCond.deletedByEq 4) (SqlCond.createdByEq 4))]

/-- The two `CREATE VIEW` statements of `buildTrackDatabase`, in source
order, each as (view name, WHERE clause over `AllTracks`). -/
def trackViews : List (String × SqlCond) :=
  [("Tracks", SqlCond.createdByEq 5),
   ("FinalTracks", SqlCond.orCond (SqlCond.deletedByEq 6) (SqlCond.createdByEq 6))]

/-- The names bound at module level in `analyzeMOPS/io.py`: the imports
`os`, `numpy as np`, `pandas as pd`, `sqlite3`, `difflib`,
`from .config import Config`, and the functions the module defines.  The
module never binds the name `sql`. -/
def ioGlobalNames : List String :=
  ["os", "np", "pd", "sqlite3", "difflib", "Config",
   "readDetectionsIntoDatabase", "readTrackletsIntoDatabase", "readTracksIntoDatabase",
   "buildTrackletDatabase", "buildTrackDatabase", "attachDatabases",
   "_findNewLinesAndDeletedIndices", "_makeNewLinkageDataFrames"]

/-- `buildTrackletDatabase(database, outDir)`: after computing the database
path string, the first statement is `con = sql.connect(database)`.  The name
`sql` is resolved against the module globals; since it is not bound, the call
raises `NameError` before any DDL statement runs.  On the (unreachable)
success path the function would create the `DiaSources`, `AllTracklets` and
`TrackletMembers` tables and the `trackletViews` views and return the
connection together with the path. -/
def buildTrackletDatabase (database outDir : String) :
    Except String ((List String × List (String × SqlCond)) × String) :=
  let path := outDir ++ "/" ++ database
  if "sql" ∈ ioGlobalNames then
    .ok ((["DiaSources", "AllTracklets", "TrackletMembers"], trackletViews), path)
  else
    .error "NameError: name sql is not defined"

/-- `buildTrackDatabase(database, outDir)`: same structure as
`buildTrackletDatabase`; the unbound name `sql` raises `NameError` before the
`AllTracks` and `TrackMembers` tables or the `trackViews` views could be
created. -/
def buildTrackDatabase (database outDir : String) :
    Except String ((List String × List (String × SqlCond)) × String) :=
  let path := outDir ++ "/" ++ database
  if "sql" ∈ ioGlobalNames then
    .ok ((["AllTracks", "TrackMembers"], trackViews), path)
  else
    .error "NameError: name sql is not defined"

/-! ### Specification predicates used by the verification -/

/-- The `k` trailing elements of the segments of `a` and `b` ending at
positions `r` and `j` agree. -/
def matchEnd (a b : List String) (r j k : Nat) : Prop :=
  ∀ t, t < k → a.getD (r - t) "" = b.getD (j - t) ""

/-- Invariant of one `j2len` row of `find_longest_match`: a nonzero value at
column `j` stays in `[blo, bhi)`, is bounded by its column offset and by
`cap`, and witnesses a real common segment ending at `(r, j)`. -/
def rowInv (a b : List String) (blo bhi cap r : Nat) (f : Nat → Nat) : Prop :=
  ∀ j, f j ≠ 0 → blo ≤ j ∧ j < bhi ∧ f j ≤ j + 1 - blo ∧ f j ≤ cap ∧ matchEnd a b r j (f j)

/-- Invariant of the running best match of `find_longest_match`: it stays
inside the requested ranges and is a real common segment. -/
def bestInv (a b : List String) (alo ahi blo bhi : Nat) (m : FLM) : Prop :=
  alo ≤ m.besti ∧ blo ≤ m.bestj ∧ m.besti + m.bestsize ≤ max alo ahi ∧
  m.bestj + m.bestsize ≤ max blo bhi ∧
  ∀ t, t < m.bestsize → a.getD (m.besti + t) "" = b.getD (m.bestj + t) ""

/-- The `@@` header line `unified_diff` emits for a group whose combined
ranges are those of the opcode `c`. -/
def hunkHeader (c : Opcode) : String :=
  "@@ -" ++ formatRangeUnified c.i1 c.i2 ++ " +" ++ formatRangeUnified c.j1 c.j2 ++ " @@\n"

/-- The file-one counter value the parser recovers from a rendered range
header: the range start as printed (`start` for an empty range, `start + 1`
otherwise). -/
def fmtStart (s e : Nat) : Nat := if e - s = 0 then s else s + 1

/-- The `(text, one based line number)` pairs the parser accumulates for the
`+` lines of one opcode. -/
def addedOfOpcode (bl : List String) (c : Opcode) : List (String × Nat) :=
  match c.tag with
  | Tag.equal => []
  | Tag.delete => []
  | _ => (List.range' c.j1 (c.j2 - c.j1)).map fun j => (pySlice1m2 ("+" ++ bl.getD j ""), j + 1)

/-- The one based line numbers the parser accumulates for the `-` lines of
one opcode. -/
def deletedOfOpcode (c : Opcode) : List Nat :=
  match c.tag with
  | Tag.equal => []
  | Tag.insert => []
  | _ => (List.range' c.i1 (c.i2 - c.i1)).map (· + 1)

/-- The non-equal opcodes of a code list (each one yields one hunk under
`n = 0` grouping). -/
def nonEqual (codes : List Opcode) : List Opcode :=
  codes.filter fun c => c.tag ≠ Tag.equal

/-- The exact `j2len` table `find_longest_match` builds over the full ranges
`[0, len a) × [0, len b)`: the Python recurrence
`k = newj2len[j] = j2len.get(j-1, 0) + 1` gated by membership of `j` in
`b2j.get(a[i], [])`. -/
def chainDP (a b : List String) : Nat → Nat → Nat
  | 0, j => if j ∈ b2j b (a.getD 0 "") then 1 else 0
  | i + 1, j =>
    if j ∈ b2j b (a.getD (i + 1) "") then
      (match j with
       | 0 => 1
       | j0 + 1 => chainDP a b i j0 + 1)
    else 0

/-- Structure of the matching block list handed to `get_opcodes`: from cursor
`(i, j)`, with `prevEq` recording whether an equal opcode was just emitted.
Every block before the last has positive size and is a real match inside the
two sequences; consecutive blocks are strictly separated (the merge pass
coalesced adjacent ones); the list ends with the `(la, lb, 0)` sentinel. -/
def BlocksOk (a b : List String) (la lb : Nat) : Nat → Nat → Bool → List Blk → Prop
  | _, _, _, [] => False
  | i, j, _, [t] => t.size = 0 ∧ t.ai = la ∧ t.bj = lb ∧ i ≤ la ∧ j ≤ lb
  | i, j, prevEq, blk :: rest =>
    i ≤ blk.ai ∧ j ≤ blk.bj ∧ 1 ≤ blk.size ∧
    (prevEq = true → ¬(i = blk.ai ∧ j = blk.bj)) ∧
    (∀ t, t < blk.size → a.getD (blk.ai + t) "" = b.getD (blk.bj + t) "") ∧
    BlocksOk a b la lb (blk.ai + blk.size) (blk.bj + blk.size) true rest

/-- Structure of the opcode list `get_opcodes` produces: tiled from cursor
`(i, j)` to `(la, lb)`, alternating between equal opcodes (positive length,
matching slices) and non-equal opcodes (positive gap on at least one side,
tag determined by which sides are nonempty).  The flag is `none` at the
start, `some true` after an equal opcode, `some false` after a non-equal
one: two equal opcodes are never adjacent, nor are two non-equal ones. -/
def CodesOk (a b : List String) (la lb : Nat) : Nat → Nat → Option Bool → List Opcode → Prop
  | i, j, _, [] => i = la ∧ j = lb
  | i, j, flag, c :: cs =>
    c.i1 = i ∧ c.j1 = j ∧ c.i2 ≤ la ∧ c.j2 ≤ lb ∧
    ((c.tag = Tag.equal ∧ flag ≠ some true ∧ c.i1 < c.i2 ∧ c.i2 - c.i1 = c.j2 - c.j1 ∧
        (∀ t, t < c.i2 - c.i1 → a.getD (c.i1 + t) "" = b.getD (c.j1 + t) "") ∧
        CodesOk a b la lb c.i2 c.j2 (some true) cs) ∨
     (c.tag ≠ Tag.equal ∧ flag ≠ some false ∧
        (c.tag = Tag.replace → c.i1 < c.i2 ∧ c.j1 < c.j2) ∧
        (c.tag = Tag.delete → c.i1 < c.i2 ∧ c.j1 = c.j2) ∧
        (c.tag = Tag.insert → c.i1 = c.i2 ∧ c.j1 < c.j2) ∧
        CodesOk a b la lb c.i2 c.j2 (some false) cs))

/-- One block lies entirely before another on both axes. -/
def Dom (x y : Blk) : Prop := x.ai + x.size ≤ y.ai ∧ x.bj + x.size ≤ y.bj

/-- Two blocks are comparable: one lies entirely before the other. -/
def CoOrd (x y : Blk) : Prop := Dom x y ∨ Dom y x

/-- A work-queue region `(alo, ahi, blo, bhi)` of `get_matching_blocks`. -/
abbrev Rg := Nat × Nat × Nat × Nat

/-- A region is well formed inside the two sequences. -/
def rgValid (la lb : Nat) : Rg → Prop
  | (alo, ahi, blo, bhi) => alo ≤ ahi ∧ ahi ≤ la ∧ blo ≤ bhi ∧ bhi ≤ lb

/-- Two regions are separated: one lies entirely before the other on both
axes. -/
def rgSep : Rg → Rg → Prop
  | (alo1, ahi1, blo1, bhi1), (alo2, ahi2, blo2, bhi2) =>
    (ahi1 ≤ alo2 ∧ bhi1 ≤ blo2) ∨ (ahi2 ≤ alo1 ∧ bhi2 ≤ blo1)

/-- A region and a block are separated: one lies entirely before the other on
both axes. -/
def rgBlkSep : Rg → Blk → Prop
  | (alo, ahi, blo, bhi), x =>
    (ahi ≤ x.ai ∧ bhi ≤ x.bj) ∨ (x.ai + x.size ≤ alo ∧ x.bj + x.size ≤ blo)

/-- An emitted block is nonempty, in bounds, and a real common segment. -/
def goodBlk (a b : List String) (la lb : Nat) (x : Blk) : Prop :=
  1 ≤ x.size ∧ x.ai + x.size ≤ la ∧ x.bj + x.size ≤ lb ∧
  ∀ t, t < x.size → a.getD (x.ai + t) "" = b.getD (x.bj + t) ""

/-- Termination measure of one queue region. -/
def rgMeasure : Rg → Nat
  | (alo, ahi, blo, bhi) => (ahi - alo) + (bhi - blo) + 1

/-- Termination measure of the whole queue. -/
def qMeasure (rs : List Rg) : Nat := (rs.map rgMeasure).sum

/-- Invariant of the `get_matching_blocks` work queue: regions are valid and
pairwise separated, emitted blocks are good and pairwise comparable, and every
pending region is separated from every emitted block. -/
def QInv (a b : List String) (la lb : Nat) (rs : List Rg) (acc : List Blk) : Prop :=
  (∀ r ∈ rs, rgValid la lb r) ∧ (∀ x ∈ acc, goodBlk a b la lb x) ∧
  List.Pairwise rgSep rs ∧ List.Pairwise CoOrd acc ∧
  ∀ r ∈ rs, ∀ x ∈ acc, rgBlkSep r x

/-- A zero length equal opcode at position `(i, j)`. -/
def zeroEq (i j : Nat) : Opcode := ⟨Tag.equal, i, i, j, j⟩

/-- Structure of the opcode list after the two boundary adjustments of
`get_grouped_opcodes(0)`, from the point where a non-equal opcode is expected:
with the flag `false` a non-equal opcode (with its tag shape conditions) comes
next; with the flag `true` either the list ends, or a zero length equal opcode
ends it, or a positive equal opcode is followed by more codes. -/
def AdjOk (a b : List String) (la lb : Nat) : Bool → Nat → Nat → List Opcode → Prop
  | false, _, _, [] => False
  | false, i, j, c :: cs =>
    c.tag ≠ Tag.equal ∧ c.i1 = i ∧ c.j1 = j ∧ c.i1 ≤ c.i2 ∧ c.j1 ≤ c.j2 ∧
    c.i2 ≤ la ∧ c.j2 ≤ lb ∧
    (c.tag = Tag.replace → c.i1 < c.i2 ∧ c.j1 < c.j2) ∧
    (c.tag = Tag.delete → c.i1 < c.i2 ∧ c.j1 = c.j2) ∧
    (c.tag = Tag.insert → c.i1 = c.i2 ∧ c.j1 < c.j2) ∧
    AdjOk a b la lb true c.i2 c.j2 cs
  | true, _, _, [] => True
  | true, i, j, c :: cs =>
    c.tag = Tag.equal ∧ c.i1 = i ∧ c.j1 = j ∧
    (match cs with
     | [] => c.i2 = c.i1 ∧ c.j2 = c.j1
     | _ :: _ => c.i1 < c.i2 ∧ c.j1 < c.j2 ∧ AdjOk a b la lb false c.i2 c.j2 cs)

/-- Chained shape conditions on a list of non-equal opcodes: each one is in
bounds, has the range shape its tag dictates, and starts at or after the end
of the previous one. -/
def HunksOk (a b : List String) : Nat → Nat → List Opcode → Prop
  | _, _, [] => True
  | i, j, c :: cs =>
    c.tag ≠ Tag.equal ∧ i ≤ c.i1 ∧ j ≤ c.j1 ∧ c.i1 ≤ c.i2 ∧ c.j1 ≤ c.j2 ∧
    c.i2 ≤ a.length ∧ c.j2 ≤ b.length ∧
    (c.tag = Tag.replace → c.i1 < c.i2 ∧ c.j1 < c.j2) ∧
    (c.tag = Tag.delete → c.i1 < c.i2 ∧ c.j1 = c.j2) ∧
    (c.tag = Tag.insert → c.i1 = c.i2 ∧ c.j1 < c.j2) ∧
    HunksOk a b c.i2 c.j2 cs

/-! ## Helper lemmas: the relation builder -/

theorem stackedFilter_eq (lines : List String) (s : Int) :
    ((((List.range lines.length).map (fun k : Nat => s + (k : Int))).zip (lines.map pySplitSpace)).flatMap
        (fun p => p.2.map (fun t => (p.1, t)))).filter (fun r => r.2 ≠ "") = memberRows lines s := by
  induction lines generalizing s with
  | nil => rfl
  | cons l ls ih =>
    simp only [List.length_cons, List.range_succ_eq_map, List.map_cons, List.map_map,
      List.zip_cons_cons, List.flatMap_cons, List.filter_append]
    rw [memberRows]
    congr 1
    · rw [List.filter_map]
      simp [Function.comp_def, Nat.cast_zero, add_zero]
    · have hfun : (List.map ((fun k : Nat => s + (k : Int)) ∘ Nat.succ) (List.range ls.length)) =
          List.map (fun k : Nat => (s + 1) + (k : Int)) (List.range ls.length) := by
        apply List.map_congr_left
        intro k _
        simp only [Function.comp_apply, Nat.succ_eq_add_one]
        push_cast
        ring
      rw [hfun, ih (s + 1)]

theorem makeNew_members_eq (newLines : List String) (t : String) (c s : Int) :
    (makeNewLinkageDataFrames newLines t c s).1 = memberRows newLines s := by
  simpa only [makeNewLinkageDataFrames] using stackedFilter_eq newLines s

theorem memberRows_fst_lb (lines : List String) (s : Int) :
    ∀ r ∈ memberRows lines s, s ≤ r.1 := by
  induction lines generalizing s with
  | nil => intro r h; cases h
  | cons l ls ih =>
    intro r hr
    rcases List.mem_append.1 hr with h | h
    · rcases List.mem_map.1 h with ⟨tok, _, rfl⟩; exact le_refl s
    · have := ih (s + 1) r h; omega

theorem memberRows_fst_sorted (lines : List String) (s : Int) :
    List.Sorted (· ≤ ·) ((memberRows lines s).map Prod.fst) := by
  induction lines generalizing s with
  | nil => simp [memberRows, List.Sorted]
  | cons l ls ih =>
    simp only [memberRows, List.map_append, List.map_map]
    rw [List.Sorted, List.pairwise_append]
    refine ⟨?_, ih (s + 1), ?_⟩
    · rw [List.pairwise_map]
      exact List.Pairwise.imp (fun _ => le_refl s) (List.pairwise_of_forall (fun _ _ => trivial))
    · intro x hx y hy
      rcases List.mem_map.1 hx with ⟨tok, _, rfl⟩
      rcases List.mem_map.1 hy with ⟨r, hr, rfl⟩
      have := memberRows_fst_lb ls (s + 1) r hr
      simp only [Function.comp]
      omega

theorem pdUniqueGo_sublist (seen l : List Int) : List.Sublist (pdUniqueGo seen l) l := by
  induction l generalizing seen with
  | nil => simp [pdUniqueGo]
  | cons x xs ih =>
    rw [pdUniqueGo]
    by_cases hx : x ∈ seen
    · rw [if_pos hx]
      exact (ih seen).trans (List.sublist_cons_self x xs)
    · rw [if_neg hx]
      exact (ih (seen ++ [x])).cons₂ x

theorem pdUnique_sorted (l : List Int) (h : List.Sorted (· ≤ ·) l) :
    List.Sorted (· ≤ ·) (pdUnique l) :=
  List.Pairwise.sublist (pdUniqueGo_sublist [] l) h

theorem pdUnique_subset (l : List Int) : ∀ x ∈ pdUnique l, x ∈ l :=
  fun _ hx => (pdUniqueGo_sublist [] l).subset hx

theorem insertionSort_eq_of_sorted (l : List Int) (h : List.Sorted (· ≤ ·) l) :
    List.insertionSort (· ≤ ·) l = l :=
  List.eq_of_perm_of_sorted (List.perm_insertionSort _ l) (List.sorted_insertionSort _ l) h

theorem zip_self_map (l : List Int) (f : Int → Nat) :
    l.zip (l.map f) = l.map fun x => (x, f x) := by
  induction l with
  | nil => rfl
  | cons x xs ih => simp [ih]

theorem makeNew_summary_eq (newLines : List String) (t : String) (c s : Int) :
    (makeNewLinkageDataFrames newLines t c s).2 =
      (pdUnique ((memberRows newLines s).map Prod.fst)).map
        (fun v => (v, ((memberRows newLines s).map Prod.fst).count v, c, (0 : Int))) := by
  have hm := stackedFilter_eq newLines s
  simp only [makeNewLinkageDataFrames, hm]
  rw [insertionSort_eq_of_sorted _ (pdUnique_sorted _ (memberRows_fst_sorted newLines s)),
    zip_self_map, List.map_map]
  rfl

/-! ## Claim C6 -/

/-- Claim C6 (confirmed): for every input to `_makeNewLinkageDataFrames` and
every linkage id appearing in the returned summary relation, its `numMembers`
value equals the number of rows of the returned members relation that carry
that linkage id. -/
theorem c6_numMembers_eq_member_count (newLines : List String) (t : String) (c s : Int)
    (row : Int × Nat × Int × Int) (hrow : row ∈ (makeNewLinkageDataFrames newLines t c s).2) :
    row.2.1 = ((makeNewLinkageDataFrames newLines t c s).1.map Prod.fst).count row.1 := by
  rw [makeNew_summary_eq] at hrow
  rw [makeNew_members_eq]
  rcases List.mem_map.1 hrow with ⟨v, _, rfl⟩
  rfl

/-- Witness for C6 at a concrete input. -/
theorem c6_numMembers_eq_member_count_witness :
    ((1, 2, 1, 0) : Int × Nat × Int × Int) ∈ (makeNewLinkageDataFrames ["7 8 "] "trackletId" 1 1).2 ∧
    ((1, 2, 1, 0) : Int × Nat × Int × Int).2.1 =
      ((makeNewLinkageDataFrames ["7 8 "] "trackletId" 1 1).1.map Prod.fst).count 1 :=
  ⟨by decide, c6_numMembers_eq_member_count ["7 8 "] "trackletId" 1 1 (1, 2, 1, 0) (by decide)⟩

/-! ## Claim C7 -/

theorem memberRows_filter_map_snd (lines : List String) (s : Int) (k : Nat)
    (hk : k < lines.length) :
    ((memberRows lines s).filter (fun r => r.1 = s + (k : Int))).map Prod.snd =
      (pySplitSpace (lines.getD k "")).filter (· ≠ "") := by
  induction lines generalizing s k with
  | nil => cases hk
  | cons l ls ih =>
    cases k with
    | zero =>
      simp only [memberRows, List.filter_append, List.map_append, Nat.cast_zero, add_zero,
        List.getD_cons_zero]
      have h1 : ((List.map (fun tok => (s, tok)) ((pySplitSpace l).filter (· ≠ ""))).filter
          (fun r => r.1 = s)).map Prod.snd = (pySplitSpace l).filter (· ≠ "") := by
        rw [List.filter_map]
        simp [Function.comp]
      have h2 : (memberRows ls (s + 1)).filter (fun r => r.1 = s) = [] := by
        rw [List.filter_eq_nil_iff]
        intro r hr
        have := memberRows_fst_lb ls (s + 1) r hr
        simp only [decide_eq_true_eq]
        omega
      rw [h1, h2]
      simp
    | succ k0 =>
      have hcast : s + ((k0 + 1 : Nat) : Int) = (s + 1) + (k0 : Int) := by push_cast; ring
      simp only [memberRows, List.filter_append, List.map_append, List.getD_cons_succ, hcast]
      have h1 : ((List.map (fun tok => (s, tok)) ((pySplitSpace l).filter (· ≠ ""))).filter
          (fun r => r.1 = (s + 1) + (k0 : Int))) = [] := by
        rw [List.filter_eq_nil_iff]
        intro r hr
        rcases List.mem_map.1 hr with ⟨tok, _, rfl⟩
        simp only [decide_eq_true_eq]
        omega
      rw [h1]
      simp only [List.map_nil, List.nil_append]
      exact ih (s + 1) k0 (Nat.lt_of_succ_lt_succ hk)

/-- Claim C7 (confirmed): `_makeNewLinkageDataFrames` consumes consecutive
integer linkage ids starting at `idStart` in input line order.  The members
relation equals the closed form `memberRows` (line `k` contributes its
nonempty tokens under id `idStart + k`), and filtering the members relation
on id `idStart + k` recovers exactly the nonempty tokens of input line `k`.
The function is pure, so equal inputs give equal relations by definition. -/
theorem c7_sequential_id_assignment (newLines : List String) (t : String) (c s : Int) :
    (makeNewLinkageDataFrames newLines t c s).1 = memberRows newLines s ∧
    ∀ k, k < newLines.length →
      (((makeNewLinkageDataFrames newLines t c s).1.filter
          (fun r => r.1 = s + (k : Int))).map Prod.snd =
        (pySplitSpace (newLines.getD k "")).filter (· ≠ "")) := by
  refine ⟨makeNew_members_eq newLines t c s, ?_⟩
  intro k hk
  rw [makeNew_members_eq]
  exact memberRows_filter_map_snd newLines s k hk

/-- Witness for C7 at a concrete input. -/
theorem c7_sequential_id_assignment_witness :
    (makeNewLinkageDataFrames ["7 8 ", "9"] "trackletId" 1 5).1 = memberRows ["7 8 ", "9"] 5 ∧
    (((makeNewLinkageDataFrames ["7 8 ", "9"] "trackletId" 1 5).1.filter
        (fun r => r.1 = 5 + ((1 : Nat) : Int))).map Prod.snd =
      (pySplitSpace ((["7 8 ", "9"] : List String).getD 1 "")).filter (· ≠ "")) :=
  ⟨(c7_sequential_id_assignment ["7 8 ", "9"] "trackletId" 1 5).1,
   (c7_sequential_id_assignment ["7 8 ", "9"] "trackletId" 1 5).2 1 (by decide)⟩

/-! ## Claim C4 -/

theorem memberRows_fst_mem (lines : List String) (s : Int) (x : Int) :
    x ∈ (memberRows lines s).map Prod.fst ↔
      ∃ k, k < lines.length ∧ x = s + (k : Int) ∧
        (pySplitSpace (lines.getD k "")).filter (· ≠ "") ≠ [] := by
  induction lines generalizing s with
  | nil => simp [memberRows]
  | cons l ls ih =>
    have hhead : x ∈ (((pySplitSpace l).filter (· ≠ "")).map (fun tok => ((s : Int), tok))).map
        Prod.fst ↔ (x = s ∧ (pySplitSpace l).filter (· ≠ "") ≠ []) := by
      rw [List.map_map]
      constructor
      · intro h
        rcases List.mem_map.1 h with ⟨tok, htok, rfl⟩
        exact ⟨rfl, fun hnil => by rw [hnil] at htok; cases htok⟩
      · rintro ⟨rfl, hne⟩
        rcases List.exists_mem_of_ne_nil _ hne with ⟨tok, htok⟩
        exact List.mem_map.2 ⟨tok, htok, rfl⟩
    rw [memberRows, List.map_append, List.mem_append, hhead, ih (s + 1)]
    constructor
    · rintro (⟨rfl, hne⟩ | ⟨k, hk, rfl, hne⟩)
      · exact ⟨0, by simp, by simp, by simpa using hne⟩
      · exact ⟨k + 1, by simpa using Nat.succ_lt_succ hk, by push_cast; ring, by simpa using hne⟩
    · rintro ⟨k, hk, rfl, hne⟩
      cases k with
      | zero => exact Or.inl ⟨by simp, by simpa using hne⟩
      | succ k0 =>
        refine Or.inr ⟨k0, by simpa using Nat.lt_of_succ_lt_succ hk, by push_cast; ring,
          by simpa using hne⟩

/-- Claim C4 counterexample: on the input `["", "1 2"]` the empty line gets
linkage id 1, but the summary relation contains no row at all with linkage id
1 — the zero-member linkage is silently dropped rather than retained with
`numMembers = 0` as the claim states.  (The call still returns normally.) -/
theorem c4_counterexample :
    makeNewLinkageDataFrames ["", "1 2"] "trackletId" 1 1 =
      ([(2, "1"), (2, "2")], [(2, 2, 1, 0)]) ∧
    ∀ row ∈ (makeNewLinkageDataFrames ["", "1 2"] "trackletId" 1 1).2, row.1 ≠ 1 :=
  ⟨by decide, by decide⟩

/-- Claim C4 (corrected): a line whose tokens are all empty after splitting
produces no member rows and no summary row; its assigned linkage id
`idStart + k` is absent from both returned relations (the linkage is silently
dropped, and the call does not crash — the embedding is a total function). -/
theorem c4_amended_zero_member_line_dropped (newLines : List String) (t : String) (c s : Int)
    (k : Nat) (hk : k < newLines.length)
    (h0 : (pySplitSpace (newLines.getD k "")).filter (· ≠ "") = []) :
    (s + (k : Int)) ∉ (makeNewLinkageDataFrames newLines t c s).1.map Prod.fst ∧
    (s + (k : Int)) ∉ (makeNewLinkageDataFrames newLines t c s).2.map Prod.fst := by
  have hm : (s + (k : Int)) ∉ (memberRows newLines s).map Prod.fst := by
    rw [memberRows_fst_mem]
    rintro ⟨k1, hk1, he, hne⟩
    have hkk : (k1 : Int) = (k : Int) := by omega
    have : k1 = k := by exact_mod_cast hkk
    subst this
    exact hne h0
  constructor
  · rw [makeNew_members_eq]; exact hm
  · rw [makeNew_summary_eq]
    intro hc
    rcases List.mem_map.1 hc with ⟨row, hrow, hfst⟩
    rcases List.mem_map.1 hrow with ⟨v, hv, rfl⟩
    have hvm : v ∈ (memberRows newLines s).map Prod.fst := pdUnique_subset _ v hv
    rw [show ((v, ((memberRows newLines s).map Prod.fst).count v, c, (0 : Int)) :
        Int × Nat × Int × Int).1 = v from rfl] at hfst
    rw [hfst] at hvm
    exact hm hvm

/-- Witness for the corrected C4 at the concrete counterexample input. -/
theorem c4_amended_zero_member_line_dropped_witness :
    (0 < (["", "1 2"] : List String).length ∧
      (pySplitSpace ((["", "1 2"] : List String).getD 0 "")).filter (· ≠ "") = []) ∧
    (((1 : Int) + ((0 : Nat) : Int)) ∉
        (makeNewLinkageDataFrames ["", "1 2"] "trackletId" 1 1).1.map Prod.fst ∧
      ((1 : Int) + ((0 : Nat) : Int)) ∉
        (makeNewLinkageDataFrames ["", "1 2"] "trackletId" 1 1).2.map Prod.fst) :=
  ⟨⟨by decide, by decide⟩,
   c4_amended_zero_member_line_dropped ["", "1 2"] "trackletId" 1 1 0 (by decide) (by decide)⟩

/-! ## Claim C8 -/

/-- Claim C8 counterexample: with the negative `idStart = -1` the function
does not fail with an input-shape error; it returns the two relations, with
the linkage id `-1`. -/
theorem c8_counterexample :
    makeNewLinkageDataFrames ["7 8"] "trackletId" 1 (-1) =
      ([((-1 : Int), "7"), ((-1 : Int), "8")], [((-1 : Int), 2, 1, 0)]) := by
  decide

/-- Claim C8 (corrected): `_makeNewLinkageDataFrames` performs no validation
of `idStart` at all.  For every negative `idStart` it returns the relations
normally, consuming consecutive ids starting at the negative `idStart` (every
member row id is at least `idStart`). -/
theorem c8_amended_no_idStart_validation (newLines : List String) (t : String) (c s : Int)
    (_hneg : s < 0) :
    (makeNewLinkageDataFrames newLines t c s).1 = memberRows newLines s ∧
    ∀ r ∈ (makeNewLinkageDataFrames newLines t c s).1, s ≤ r.1 := by
  refine ⟨makeNew_members_eq newLines t c s, ?_⟩
  intro r hr
  rw [makeNew_members_eq] at hr
  exact memberRows_fst_lb newLines s r hr

/-- Witness for the corrected C8 at `idStart = -1`. -/
theorem c8_amended_no_idStart_validation_witness :
    ((-1 : Int) < 0) ∧
    ((makeNewLinkageDataFrames ["7 8"] "trackletId" 1 (-1)).1 = memberRows ["7 8"] (-1) ∧
      ∀ r ∈ (makeNewLinkageDataFrames ["7 8"] "trackletId" 1 (-1)).1, (-1 : Int) ≤ r.1) :=
  ⟨by decide, c8_amended_no_idStart_validation ["7 8"] "trackletId" 1 (-1) (by decide)⟩

/-! ## Claim C5 -/

/-- Claim C5 counterexample: the claim requires, for every recognized stage
tag, both a created-by view (`createdBy = N`) and an affected-by view
(`createdBy = N OR deletedBy = N`).  The tracklet database DDL has no
created-by view for stage 2 (nor 3, nor 4) and no affected-by view for stage
1; the track database DDL has no created-by view for stage 6 and no
affected-by view for stage 5. -/
theorem c5_counterexample :
    (∀ v ∈ trackletViews, v.2 ≠ SqlCond.createdByEq 2) ∧
    (∀ v ∈ trackletViews,
      v.2 ≠ SqlCond.orCond (SqlCond.deletedByEq 1) (SqlCond.createdByEq 1)) ∧
    (∀ v ∈ trackViews, v.2 ≠ SqlCond.createdByEq 6) ∧
    (∀ v ∈ trackViews, v.2 ≠ SqlCond.orCond (SqlCond.deletedByEq 5) (SqlCond.createdByEq 5)) := by
  refine ⟨?_, ?_, ?_, ?_⟩ <;> decide

/-- Claim C5 (corrected): each linkage kind gets a created-by view exactly for
its first stage (`Tracklets`: `createdBy = 1`; `Tracks`: `createdBy = 5`) and
an affected-by view (`deletedBy = N OR createdBy = N`) exactly for each later
stage of the kind (tracklets: stages 2, 3, 4; tracks: stage 6), every view a
pure filter of the ledger table; the affected-by WHERE clause is the claimed
`createdBy = N OR deletedBy = N` filter up to commutativity of OR. -/
theorem c5_amended_views :
    (∀ n : Int, (∃ v ∈ trackletViews, v.2 = SqlCond.createdByEq n) ↔ n = 1) ∧
    (∀ n : Int, (∃ v ∈ trackletViews,
        v.2 = SqlCond.orCond (SqlCond.deletedByEq n) (SqlCond.createdByEq n)) ↔
      (n = 2 ∨ n = 3 ∨ n = 4)) ∧
    (∀ n : Int, (∃ v ∈ trackViews, v.2 = SqlCond.createdByEq n) ↔ n = 5) ∧
    (∀ n : Int, (∃ v ∈ trackViews,
        v.2 = SqlCond.orCond (SqlCond.deletedByEq n) (SqlCond.createdByEq n)) ↔ n = 6) ∧
    (∀ (n cb db : Int),
      evalCond (SqlCond.orCond (SqlCond.deletedByEq n) (SqlCond.createdByEq n)) cb db =
        (decide (cb = n) || decide (db = n))) := by
  refine ⟨?_, ?_, ?_, ?_, ?_⟩
  · intro n
    constructor
    · rintro ⟨v, hv, he⟩
      fin_cases hv <;> simp_all [trackletViews]
    · rintro rfl
      exact ⟨("Tracklets", SqlCond.createdByEq 1), by decide, rfl⟩
  · intro n
    constructor
    · rintro ⟨v, hv, he⟩
      fin_cases hv <;> simp_all [trackletViews]
    · rintro (rfl | rfl | rfl)
      · exact ⟨("CollapsedTracklets", _), by decide, rfl⟩
      · exact ⟨("PurifiedTracklets", _), by decide, rfl⟩
      · exact ⟨("FinalTracklets", _), by decide, rfl⟩
  · intro n
    constructor
    · rintro ⟨v, hv, he⟩
      fin_cases hv <;> simp_all [trackViews]
    · rintro rfl
      exact ⟨("Tracks", SqlCond.createdByEq 5), by decide, rfl⟩
  · intro n
    constructor
    · rintro ⟨v, hv, he⟩
      fin_cases hv <;> simp_all [trackViews]
    · rintro rfl
      exact ⟨("FinalTracks", _), by decide, rfl⟩
  · intro n cb db
    simp [evalCond, Bool.or_comm]

/-! ## Claim C9 -/

/-- Claim C9 (confirmed): a list of more than ten databases is truncated to
the first ten — the call returns exactly ten attached names together with a
printed warning, and never fails (the embedding is a total function, and the
Python code has no raise path here). -/
theorem c9_attach_truncates (databases : List String) (h : 10 < databases.length) :
    (attachDatabases databases).1.length = 10 ∧ (attachDatabases databases).2 ≠ [] := by
  simp only [attachDatabases, if_pos h]
  refine ⟨?_, by simp⟩
  simp only [List.length_map, List.length_range, List.length_take]
  omega

/-- Witness for C9 on a concrete list of twelve databases. -/
theorem c9_attach_truncates_witness :
    10 < (List.replicate 12 "w").length ∧
    ((attachDatabases (List.replicate 12 "w")).1.length = 10 ∧
      (attachDatabases (List.replicate 12 "w")).2 ≠ []) :=
  ⟨by decide, c9_attach_truncates (List.replicate 12 "w") (by decide)⟩

/-! ## Claim C10 -/

/-- Claim C10 (confirmed): `buildTrackletDatabase` and `buildTrackDatabase`
resolve the unbound module-level name `sql` (the module imports `sqlite3`
under the name `sqlite3`, never `sql`), so every call raises a `NameError`
before any table or view is created and neither function can ever return a
connection. -/
theorem c10_build_database_raises_nameError (database outDir : String) :
    buildTrackletDatabase database outDir = Except.error "NameError: name sql is not defined" ∧
    buildTrackDatabase database outDir = Except.error "NameError: name sql is not defined" := by
  constructor
  · unfold buildTrackletDatabase
    rw [if_neg (by decide)]
  · unfold buildTrackDatabase
    rw [if_neg (by decide)]

/-! ## Claim C1 -/

/-- Claim C1 counterexample: on the old file `"1 2 3\n4 5 6\n"` and the new
file `"1 2 3\n4 5 6\n7 8 9\n"`, the added line reported by
`_findNewLinesAndDeletedIndices` is `"7 8 "` — the `line[1:-2]` slice strips
the newline and the final character `9` — not the claimed `"7 8 9"`; feeding
the reported line to `_makeNewLinkageDataFrames` therefore yields the summary
row `(1, 2, 1, 0)` and members `(1, "7"), (1, "8")`, not the claimed
`(1, 3, 1, 0)` with members `7, 8, 9`. -/
theorem c1_counterexample :
    findNewLinesAndDeletedIndices ["1 2 3", "4 5 6"] ["1 2 3", "4 5 6", "7 8 9"] =
      Except.ok (["7 8 "], [3], []) ∧
    (["7 8 "] : List String) ≠ ["7 8 9"] ∧
    makeNewLinkageDataFrames ["7 8 "] "trackletId" 1 1 =
      ([(1, "7"), (1, "8")], [(1, 2, 1, 0)]) ∧
    ((1, 2, 1, 0) : Int × Nat × Int × Int) ≠ (1, 3, 1, 0) :=
  ⟨by rfl, by decide, by decide, by decide⟩

/-- Claim C1 (corrected): on the scenario files the diff reports
`addedLines = ["7 8 "]` (the new line with its final character stripped by the
`[1:-2]` slice), `addedLineNumbers = [3]`, `deletedLineNumbers = []`; the
relation builder applied to that output with `createdBy = 1, idStart = 1`
returns the members relation `[(1, "7"), (1, "8")]` and the summary relation
`[(1, 2, 1, 0)]`. -/
theorem c1_amended_scenario :
    findNewLinesAndDeletedIndices ["1 2 3", "4 5 6"] ["1 2 3", "4 5 6", "7 8 9"] =
      Except.ok (["7 8 "], [3], []) ∧
    makeNewLinkageDataFrames ["7 8 "] "trackletId" 1 1 =
      ([(1, "7"), (1, "8")], [(1, 2, 1, 0)]) :=
  ⟨by rfl, by decide⟩

/-! ## Claims C2 and C3: counterexamples -/

/-- Claim C2 counterexample: for the well formed files `["aa", "bb"]` and
`["bb", "aa"]` the function reports `deletedLineNumbers = [2]`, yet the old
line at position 2 (`"bb"`) is also present in the new file — so the deleted
entry is not the position of "a line present only in the old file"; likewise
the reported added line `"b"` (truncated by `[1:-2]`) is not a line of the
new file at all, so the added entry is not the position "of the corresponding
reported added line" read literally. -/
theorem c2_counterexample :
    findNewLinesAndDeletedIndices ["aa", "bb"] ["bb", "aa"] = Except.ok (["b"], [1], [2]) ∧
    (["aa", "bb"] : List String).getD (2 - 1) "" = "bb" ∧
    "bb" ∈ (["bb", "aa"] : List String) ∧
    "b" ∉ (["bb", "aa"] : List String) :=
  ⟨by rfl, by decide, by decide, by decide⟩

/-- Claim C3 counterexample: appending the single line `"7 8 9"` to an empty
old file makes the function report `addedLines = ["7 8 "]` — the appended
suffix with the last character of the line stripped by the `[1:-2]` slice —
which differs from the appended suffix `["7 8 9"]` the claim requires. -/
theorem c3_counterexample :
    findNewLinesAndDeletedIndices [] ["7 8 9"] = Except.ok (["7 8 "], [1], []) ∧
    (["7 8 "] : List String) ≠ ["7 8 9"] :=
  ⟨by rfl, by decide⟩

/-! ## Helper lemmas: `find_longest_match` invariants -/

theorem mem_b2j {b : List String} {x : String} {j : Nat} (h : j ∈ b2j b x) :
    j < b.length ∧ b.getD j "" = x := by
  simp only [b2j] at h
  split at h
  · cases h
  · rcases List.mem_filter.1 h with ⟨hj, he⟩
    exact ⟨List.mem_range.1 hj, by simpa using he⟩

theorem flmInner_inv (a b : List String) (alo ahi blo bhi i : Nat)
    (hlo : alo ≤ i) (hhi : i < ahi) (prev : Nat → Nat)
    (hprev : rowInv a b blo bhi (i - alo) (i - 1) prev) :
    ∀ (js : List Nat) (cur : Nat → Nat) (best : FLM),
    (∀ j ∈ js, b.getD j "" = a.getD i "") →
    rowInv a b blo bhi (i + 1 - alo) i cur →
    bestInv a b alo ahi blo bhi best →
    rowInv a b blo bhi (i + 1 - alo) i (flmInner blo bhi i prev js cur best).1 ∧
    bestInv a b alo ahi blo bhi (flmInner blo bhi i prev js cur best).2 := by
  intro js
  induction js with
  | nil => intro cur best _ hcur hbest; exact ⟨hcur, hbest⟩
  | cons j js ih =>
    intro cur best hjs hcur hbest
    simp only [flmInner]
    by_cases h1 : j < blo
    · rw [if_pos h1]
      exact ih cur best (fun x hx => hjs x (List.mem_cons_of_mem j hx)) hcur hbest
    · rw [if_neg h1]
      by_cases h2 : bhi ≤ j
      · rw [if_pos h2]; exact ⟨hcur, hbest⟩
      · rw [if_neg h2]
        have hblo : blo ≤ j := Nat.le_of_not_lt h1
        have hbhi : j < bhi := Nat.lt_of_not_le h2
        have hab : b.getD j "" = a.getD i "" := hjs j (List.mem_cons_self j js)
        set k0 := (match j with | 0 => 0 | j0 + 1 => prev j0) with hk0
        have hkcap : k0 + 1 ≤ i + 1 - alo := by
          rcases j with _ | j0
          · simp only [hk0]; omega
          · by_cases hz : prev j0 = 0
            · simp only [hk0, hz]; omega
            · have := (hprev j0 hz).2.2.2.1
              simp only [hk0]; omega
        have hkcol : k0 + 1 ≤ j + 1 - blo := by
          rcases j with _ | j0
          · simp only [hk0]; omega
          · by_cases hz : prev j0 = 0
            · simp only [hk0, hz]; omega
            · have := (hprev j0 hz).2.2.1
              simp only [hk0]; omega
        have hkme : matchEnd a b i j (k0 + 1) := by
          intro t ht
          rcases t with _ | t0
          · simpa using hab.symm
          · rcases j with _ | j0
            · simp only [hk0] at ht; omega
            · by_cases hz : prev j0 = 0
              · simp only [hk0, hz] at ht; omega
              · have hme := (hprev j0 hz).2.2.2.2
                have hcap := (hprev j0 hz).2.2.2.1
                have ht0 : t0 < prev j0 := by simp only [hk0] at ht; omega
                have e1 : i - (t0 + 1) = (i - 1) - t0 := by omega
                have e2 : (j0 + 1) - (t0 + 1) = j0 - t0 := by omega
                rw [e1, e2]
                exact hme t0 ht0
        apply ih
        · exact fun x hx => hjs x (List.mem_cons_of_mem j hx)
        · intro j1 hj1
          by_cases hje : j1 = j
          · subst hje
            simp only [if_pos rfl] at hj1 ⊢
            exact ⟨hblo, hbhi, hkcol, hkcap, hkme⟩
          · simp only [if_neg hje] at hj1 ⊢
            exact hcur j1 hj1
        · by_cases hup : best.bestsize < k0 + 1
          · rw [if_pos hup]
            have hmax1 : ahi ≤ max alo ahi := le_max_right alo ahi
            have hmax2 : bhi ≤ max blo bhi := le_max_right blo bhi
            refine ⟨?_, ?_, ?_, ?_, ?_⟩
            · show alo ≤ i + 1 - (k0 + 1)
              omega
            · show blo ≤ j + 1 - (k0 + 1)
              omega
            · show i + 1 - (k0 + 1) + (k0 + 1) ≤ max alo ahi
              omega
            · show j + 1 - (k0 + 1) + (k0 + 1) ≤ max blo bhi
              omega
            · intro t ht
              have ht1 : t < k0 + 1 := ht
              show a.getD (i + 1 - (k0 + 1) + t) "" = b.getD (j + 1 - (k0 + 1) + t) ""
              have e1 : i + 1 - (k0 + 1) + t = i - (k0 - t) := by omega
              have e2 : j + 1 - (k0 + 1) + t = j - (k0 - t) := by omega
              rw [e1, e2]
              exact hkme (k0 - t) (by omega)
          · rw [if_neg hup]
            exact hbest

theorem flmOuter_inv (a b : List String) (alo ahi blo bhi : Nat) :
    ∀ (cnt i : Nat) (prev : Nat → Nat) (best : FLM),
    alo ≤ i → cnt ≤ ahi - i →
    rowInv a b blo bhi (i - alo) (i - 1) prev →
    bestInv a b alo ahi blo bhi best →
    bestInv a b alo ahi blo bhi
      (flmOuter (b2j b) a blo bhi (List.range' i cnt) prev best) := by
  intro cnt
  induction cnt with
  | zero => intro i prev best _ _ _ hbest; exact hbest
  | succ n ih =>
    intro i prev best hlo hhi hprev hbest
    rw [List.range'_succ, flmOuter]
    have hjs : ∀ j ∈ b2j b (a.getD i ""), b.getD j "" = a.getD i "" :=
      fun j hj => (mem_b2j hj).2
    have hzero : rowInv a b blo bhi (i + 1 - alo) i (fun _ => 0) := by
      intro j hj; cases hj rfl
    have h := flmInner_inv a b alo ahi blo bhi i hlo (by omega) prev hprev
      (b2j b (a.getD i "")) (fun _ => 0) best hjs hzero hbest
    have hrow : rowInv a b blo bhi ((i + 1) - alo) ((i + 1) - 1)
        (flmInner blo bhi i prev (b2j b (a.getD i "")) (fun _ => 0) best).1 := by
      have e2 : (i + 1) - 1 = i := by omega
      rw [e2]
      exact h.1
    exact ih (i + 1) _ _ (by omega) (by omega) hrow h.2

theorem extendBack_inv (a b : List String) (alo ahi blo bhi : Nat) :
    ∀ (fuel : Nat) (m : FLM), bestInv a b alo ahi blo bhi m →
    bestInv a b alo ahi blo bhi (extendBack a b alo blo fuel m) := by
  intro fuel
  induction fuel with
  | zero => intro m hm; exact hm
  | succ n ih =>
    intro m hm
    rw [extendBack]
    split
    case isTrue hc =>
      rcases hc with ⟨h1, h2, h3⟩
      apply ih
      obtain ⟨hb1, hb2, hb3, hb4, hb5⟩ := hm
      refine ⟨?_, ?_, ?_, ?_, ?_⟩
      · show alo ≤ m.besti - 1
        omega
      · show blo ≤ m.bestj - 1
        omega
      · show m.besti - 1 + (m.bestsize + 1) ≤ max alo ahi
        omega
      · show m.bestj - 1 + (m.bestsize + 1) ≤ max blo bhi
        omega
      · intro t ht
        have ht1 : t < m.bestsize + 1 := ht
        show a.getD (m.besti - 1 + t) "" = b.getD (m.bestj - 1 + t) ""
        rcases t with _ | t0
        · simpa using h3
        · have e1 : m.besti - 1 + (t0 + 1) = m.besti + t0 := by omega
          have e2 : m.bestj - 1 + (t0 + 1) = m.bestj + t0 := by omega
          rw [e1, e2]
          exact hb5 t0 (by omega)
    case isFalse => exact hm

theorem extendFwd_inv (a b : List String) (alo ahi blo bhi : Nat) :
    ∀ (fuel : Nat) (m : FLM), bestInv a b alo ahi blo bhi m →
    bestInv a b alo ahi blo bhi (extendFwd a b ahi bhi fuel m) := by
  intro fuel
  induction fuel with
  | zero => intro m hm; exact hm
  | succ n ih =>
    intro m hm
    rw [extendFwd]
    split
    case isTrue hc =>
      rcases hc with ⟨h1, h2, h3⟩
      apply ih
      obtain ⟨hb1, hb2, hb3, hb4, hb5⟩ := hm
      have hmax1 : ahi ≤ max alo ahi := le_max_right alo ahi
      have hmax2 : bhi ≤ max blo bhi := le_max_right blo bhi
      refine ⟨?_, ?_, ?_, ?_, ?_⟩
      · show alo ≤ m.besti
        omega
      · show blo ≤ m.bestj
        omega
      · show m.besti + (m.bestsize + 1) ≤ max alo ahi
        omega
      · show m.bestj + (m.bestsize + 1) ≤ max blo bhi
        omega
      · intro t ht
        have ht1 : t < m.bestsize + 1 := ht
        show a.getD (m.besti + t) "" = b.getD (m.bestj + t) ""
        by_cases hts : t = m.bestsize
        · subst hts; exact h3
        · exact hb5 t (by omega)
    case isFalse => exact hm

theorem findLongestMatch_inv (a b : List String) (alo ahi blo bhi : Nat) :
    bestInv a b alo ahi blo bhi (findLongestMatch a b alo ahi blo bhi) := by
  unfold findLongestMatch
  apply extendFwd_inv
  apply extendBack_inv
  apply flmOuter_inv a b alo ahi blo bhi (ahi - alo) alo (fun _ => 0) _ le_rfl le_rfl
  · intro j hj; cases hj rfl
  · have hmax1 : alo ≤ max alo ahi := le_max_left alo ahi
    have hmax2 : blo ≤ max blo bhi := le_max_left blo bhi
    refine ⟨le_rfl, le_rfl, ?_, ?_, ?_⟩
    · show alo + 0 ≤ max alo ahi
      omega
    · show blo + 0 ≤ max blo bhi
      omega
    · intro t ht
      have ht1 : t < 0 := ht
      omega

/-- When the best match is nonempty, its end stays inside the requested
ranges (and in particular the ranges are nonempty). -/
theorem findLongestMatch_pos (a b : List String) (alo ahi blo bhi : Nat)
    (h : (findLongestMatch a b alo ahi blo bhi).bestsize ≠ 0) :
    alo ≤ (findLongestMatch a b alo ahi blo bhi).besti ∧
    blo ≤ (findLongestMatch a b alo ahi blo bhi).bestj ∧
    (findLongestMatch a b alo ahi blo bhi).besti +
      (findLongestMatch a b alo ahi blo bhi).bestsize ≤ ahi ∧
    (findLongestMatch a b alo ahi blo bhi).bestj +
      (findLongestMatch a b alo ahi blo bhi).bestsize ≤ bhi := by
  obtain ⟨h1, h2, h3, h4, _⟩ := findLongestMatch_inv a b alo ahi blo bhi
  refine ⟨h1, h2, ?_, ?_⟩ <;> omega

/-! ## Helper lemmas: strings, tokens, decimal rendering -/

theorem strExt {s t : String} (h : s.data = t.data) : s = t := by
  cases s with
  | mk d1 =>
    cases t with
    | mk d2 => exact congrArg String.mk h

theorem splitWsAll_eq_cons (cs : List Char) : ∃ t ts, splitWsAll cs = t :: ts := by
  induction cs with
  | nil => exact ⟨[], [], rfl⟩
  | cons c cs ih =>
    obtain ⟨t, ts, hts⟩ := ih
    rw [splitWsAll, hts]
    by_cases hc : pyIsSpace c
    · exact ⟨[], t :: ts, by simp [hc]⟩
    · exact ⟨c :: t, ts, by simp [hc]⟩

theorem splitWsAll_cons_nonspace {m : Char} (hm : pyIsSpace m = false) (cs : List Char) :
    ∃ t ts, splitWsAll cs = t :: ts ∧ splitWsAll (m :: cs) = (m :: t) :: ts := by
  obtain ⟨t, ts, hts⟩ := splitWsAll_eq_cons cs
  exact ⟨t, ts, hts, by rw [splitWsAll, hts]; simp [hm]⟩

theorem splitWsAll_sep (rest : List Char) :
    splitWsAll (' ' :: rest) = [] :: splitWsAll rest := by
  obtain ⟨t, ts, hts⟩ := splitWsAll_eq_cons rest
  rw [splitWsAll, hts]
  simp [pyIsSpace, hts]

theorem splitWsAll_token (xs rest : List Char) (hxs : ∀ c ∈ xs, pyIsSpace c = false) :
    splitWsAll (xs ++ ' ' :: rest) = xs :: splitWsAll rest := by
  induction xs with
  | nil => simpa using splitWsAll_sep rest
  | cons x xs ih =>
    have hx : pyIsSpace x = false := hxs x (List.mem_cons_self x xs)
    have hxs2 : ∀ c ∈ xs, pyIsSpace c = false := fun c hc => hxs c (List.mem_cons_of_mem x hc)
    rw [List.cons_append, splitWsAll, ih hxs2]
    simp [hx]

theorem splitCharAll_eq_cons (sep : Char) (cs : List Char) :
    ∃ t ts, splitCharAll sep cs = t :: ts := by
  induction cs with
  | nil => exact ⟨[], [], rfl⟩
  | cons c cs ih =>
    obtain ⟨t, ts, hts⟩ := ih
    rw [splitCharAll, hts]
    by_cases hc : c = sep
    · exact ⟨[], t :: ts, by simp [hc]⟩
    · exact ⟨c :: t, ts, by simp [hc]⟩

theorem splitCharAll_sepFree (sep : Char) (xs : List Char) (hxs : ∀ c ∈ xs, c ≠ sep) :
    splitCharAll sep xs = [xs] := by
  induction xs with
  | nil => rfl
  | cons x xs ih =>
    have hx : x ≠ sep := hxs x (List.mem_cons_self x xs)
    rw [splitCharAll, ih (fun c hc => hxs c (List.mem_cons_of_mem x hc))]
    simp [hx]

theorem splitCharAll_token (sep : Char) (xs rest : List Char) (hxs : ∀ c ∈ xs, c ≠ sep) :
    splitCharAll sep (xs ++ sep :: rest) = xs :: splitCharAll sep rest := by
  induction xs with
  | nil =>
    obtain ⟨t, ts, hts⟩ := splitCharAll_eq_cons sep rest
    rw [List.nil_append, splitCharAll, hts]
    simp [hts]
  | cons x xs ih =>
    have hx : x ≠ sep := hxs x (List.mem_cons_self x xs)
    rw [List.cons_append, splitCharAll, ih (fun c hc => hxs c (List.mem_cons_of_mem x hc))]
    simp [hx]

theorem digitChar_props (d : Nat) (hd : d < 10) :
    pyIsSpace (digitChar d) = false ∧ digitChar d ≠ ',' ∧ (digitChar d).toNat = 48 + d := by
  interval_cases d <;> exact ⟨by decide, by decide, by decide⟩

theorem natDigitsAux_digits :
    ∀ fuel n c, c ∈ natDigitsAux fuel n → ∃ d, d < 10 ∧ c = digitChar d := by
  intro fuel
  induction fuel with
  | zero => intro n c h; cases h
  | succ f ih =>
    intro n c h
    by_cases hn : n < 10
    · rw [natDigitsAux, if_pos hn] at h
      rw [List.mem_singleton.1 h]
      exact ⟨n, hn, rfl⟩
    · rw [natDigitsAux, if_neg hn] at h
      rcases List.mem_append.1 h with h | h
      · exact ih _ c h
      · rw [List.mem_singleton.1 h]
        exact ⟨n % 10, Nat.mod_lt _ (by omega), rfl⟩

theorem natDigitsAux_ne_nil (fuel n : Nat) : natDigitsAux (fuel + 1) n ≠ [] := by
  by_cases hn : n < 10
  · rw [natDigitsAux, if_pos hn]; simp
  · rw [natDigitsAux, if_neg hn]; simp

theorem pyStr_chars (n : Nat) :
    ∀ c ∈ (pyStr n).data, pyIsSpace c = false ∧ c ≠ ',' := by
  intro c hc
  obtain ⟨d, hd, rfl⟩ := natDigitsAux_digits (n + 1) n c hc
  exact ⟨(digitChar_props d hd).1, (digitChar_props d hd).2.1⟩

theorem pyStr_ne_nil (n : Nat) : (pyStr n).data ≠ [] := natDigitsAux_ne_nil n n

theorem pyIntChars_append_single (xs : List Char) (c : Char) :
    pyIntChars (xs ++ [c]) = pyIntChars xs * 10 + (c.toNat - 48) := by
  simp [pyIntChars, List.foldl_append]

theorem pyInt_natDigitsAux : ∀ fuel n, n < fuel → pyIntChars (natDigitsAux fuel n) = n := by
  intro fuel
  induction fuel with
  | zero => intro n h; omega
  | succ f ih =>
    intro n h
    by_cases hn : n < 10
    · rw [natDigitsAux, if_pos hn]
      have := (digitChar_props n hn).2.2
      simp [pyIntChars, this]
    · rw [natDigitsAux, if_neg hn, pyIntChars_append_single]
      have hdiv : n / 10 < f := by
        have h1 : n / 10 < n := Nat.div_lt_self (by omega) (by omega)
        omega
      rw [ih (n / 10) hdiv, (digitChar_props (n % 10) (Nat.mod_lt _ (by omega))).2.2]
      omega

theorem pyInt_pyStr (n : Nat) : pyInt (pyStr n) = n :=
  pyInt_natDigitsAux (n + 1) n (by omega)

theorem formatRangeUnified_chars (s e : Nat) :
    ∀ c ∈ (formatRangeUnified s e).data, pyIsSpace c = false := by
  intro c hc
  simp only [formatRangeUnified] at hc
  split at hc
  · exact (pyStr_chars _ c hc).1
  · rw [String.data_append, String.data_append] at hc
    rcases List.mem_append.1 hc with hc | hc
    · rcases List.mem_append.1 hc with hc | hc
      · exact (pyStr_chars _ c hc).1
      · rw [show ("," : String).data = [','] from rfl] at hc
        rw [List.mem_singleton.1 hc]
        decide
    · exact (pyStr_chars _ c hc).1

theorem formatRangeUnified_ne_nil (s e : Nat) : (formatRangeUnified s e).data ≠ [] := by
  simp only [formatRangeUnified]
  split
  · exact pyStr_ne_nil _
  · rw [String.data_append, String.data_append]
    intro h
    rcases List.append_eq_nil.1 h with ⟨h1, _⟩
    exact pyStr_ne_nil _ (List.append_eq_nil.1 h1).1

theorem parse_range (m : Char) (hm : m ≠ ',') (s e : Nat) :
    pyInt (pySlice1 ((pySplitComma (String.mk (m :: (formatRangeUnified s e).data))).headD "")) =
      fmtStart s e := by
  simp only [formatRangeUnified, fmtStart]
  by_cases h1 : e - s = 1
  · rw [if_pos h1]
    have hfree : ∀ c ∈ m :: (pyStr (s + 1)).data, c ≠ ',' := by
      intro c hc
      rcases List.mem_cons.1 hc with rfl | hc
      · exact hm
      · exact (pyStr_chars _ c hc).2
    rw [show pySplitComma (String.mk (m :: (pyStr (s + 1)).data)) =
        [String.mk (m :: (pyStr (s + 1)).data)] by
      simp [pySplitComma, splitCharAll_sepFree ',' _ hfree]]
    rw [if_neg (by omega)]
    simpa [pySlice1, pyInt] using pyInt_pyStr (s + 1)
  · rw [if_neg h1]
    set x := if e - s = 0 then s else s + 1 with hx
    have hfree : ∀ c ∈ m :: (pyStr x).data, c ≠ ',' := by
      intro c hc
      rcases List.mem_cons.1 hc with rfl | hc
      · exact hm
      · exact (pyStr_chars _ c hc).2
    have hsplit : splitCharAll ',' (m :: ((pyStr x).data ++ ',' :: (pyStr (e - s)).data)) =
        (m :: (pyStr x).data) :: splitCharAll ',' (pyStr (e - s)).data := by
      rw [show m :: ((pyStr x).data ++ ',' :: (pyStr (e - s)).data) =
        (m :: (pyStr x).data) ++ ',' :: (pyStr (e - s)).data from rfl]
      exact splitCharAll_token ',' _ _ hfree
    have hdata : String.mk (m :: (pyStr x ++ "," ++ pyStr (e - s)).data) =
        String.mk ((m :: (pyStr x).data) ++ ',' :: (pyStr (e - s)).data) := by
      apply strExt
      show m :: (pyStr x ++ "," ++ pyStr (e - s)).data =
        (m :: (pyStr x).data) ++ ',' :: (pyStr (e - s)).data
      rw [String.data_append, String.data_append, show ("," : String).data = [','] from rfl]
      simp
    rw [hdata,
      show pySplitComma (String.mk ((m :: (pyStr x).data) ++ ',' :: (pyStr (e - s)).data)) =
        String.mk (m :: (pyStr x).data) ::
          (splitCharAll ',' (pyStr (e - s)).data).map (fun cs => String.mk cs) by
        simp [pySplitComma, hsplit]]
    simpa [pySlice1, pyInt] using pyInt_pyStr x

theorem pySplitWs_cons (m : Char) (hm : pyIsSpace m = false) (cs : List Char) :
    ∃ t ts, splitWsAll cs = t :: ts ∧
      pySplitWs (String.mk (m :: cs)) =
        String.mk (m :: t) :: (ts.filter (· ≠ [])).map (fun l => String.mk l) := by
  obtain ⟨t, ts, hts, hcons⟩ := splitWsAll_cons_nonspace hm cs
  refine ⟨t, ts, hts, ?_⟩
  simp only [pySplitWs, hcons]
  rw [List.filter_cons_of_pos (by simp)]
  simp

/-! ## Helper lemmas: parsing rendered hunks -/

theorem range'_map_succ (s n : Nat) :
    (List.range' s n).map (· + 1) = List.range' (s + 1) n := by
  induction n generalizing s with
  | zero => rfl
  | succ n ih => rw [List.range'_succ, List.range'_succ, List.map_cons, ih]

theorem pySliceList_zero (l : List String) (i : Nat) : pySliceList l i i = [] := by
  apply List.drop_eq_nil_of_le
  simpa using Nat.min_le_left i l.length

theorem pySliceList_eq (l : List String) :
    ∀ len i, i + len ≤ l.length →
    pySliceList l i (i + len) = (List.range' i len).map (fun t => l.getD t "") := by
  intro len
  induction len with
  | zero => intro i _; simpa using pySliceList_zero l i
  | succ n ih =>
    intro i hi
    have hil : i < l.length := by omega
    have h1 : pySliceList l i (i + (n + 1)) = l.getD i "" :: pySliceList l (i + 1) (i + 1 + n) := by
      unfold pySliceList
      rw [List.drop_take, List.drop_take]
      rw [List.drop_eq_getElem_cons hil]
      have e1 : i + (n + 1) - i = n + 1 := by omega
      have e2 : i + 1 + n - (i + 1) = n := by omega
      rw [e1, e2, List.take_succ_cons, List.getD_eq_getElem l "" hil]
    rw [h1, List.range'_succ, List.map_cons, ih (i + 1) (by omega)]

theorem parseUdiff_header (c : Opcode) (rest : List String) (f1 f2 : Option Nat)
    (nl : List String) (nn : List Nat) (dl : List String) (dn : List Nat) :
    parseUdiff (hunkHeader c :: rest) f1 f2 nl nn dl dn =
      parseUdiff rest (some (fmtStart c.i1 c.i2)) (some (fmtStart c.j1 c.j2)) nl nn dl dn := by
  have hr1 := formatRangeUnified_chars c.i1 c.i2
  have hr2 := formatRangeUnified_chars c.j1 c.j2
  have hdata : (hunkHeader c).data =
      ['@', '@'] ++ ' ' :: (('-' :: (formatRangeUnified c.i1 c.i2).data) ++
        ' ' :: (('+' :: (formatRangeUnified c.j1 c.j2).data) ++ ' ' :: ['@', '@', '\n'])) := by
    show ("@@ -" ++ formatRangeUnified c.i1 c.i2 ++ " +" ++ formatRangeUnified c.j1 c.j2
        ++ " @@\n").data = _
    rw [String.data_append, String.data_append, String.data_append, String.data_append]
    rw [show ("@@ -" : String).data = ['@', '@', ' ', '-'] from rfl,
      show (" +" : String).data = [' ', '+'] from rfl,
      show (" @@\n" : String).data = [' ', '@', '@', '\n'] from rfl]
    simp
  have hat : ∀ ch ∈ ['@', '@'], pyIsSpace ch = false := by
    intro ch hch
    rcases List.mem_cons.1 hch with rfl | hch
    · decide
    · rcases List.mem_cons.1 hch with rfl | hch
      · decide
      · cases hch
  have hf1 : ∀ ch ∈ '-' :: (formatRangeUnified c.i1 c.i2).data, pyIsSpace ch = false := by
    intro ch hch
    rcases List.mem_cons.1 hch with rfl | hch
    · decide
    · exact hr1 ch hch
  have hf2 : ∀ ch ∈ '+' :: (formatRangeUnified c.j1 c.j2).data, pyIsSpace ch = false := by
    intro ch hch
    rcases List.mem_cons.1 hch with rfl | hch
    · decide
    · exact hr2 ch hch
  have hsplit : pySplitWs (hunkHeader c) =
      ["@@", String.mk ('-' :: (formatRangeUnified c.i1 c.i2).data),
       String.mk ('+' :: (formatRangeUnified c.j1 c.j2).data), "@@"] := by
    unfold pySplitWs
    rw [hdata, splitWsAll_token ['@', '@'] _ hat, splitWsAll_token _ _ hf1,
      splitWsAll_token _ _ hf2,
      show splitWsAll ['@', '@', '\n'] = [['@', '@'], []] by decide]
    simp
  simp only [parseUdiff, hsplit]
  rw [if_pos trivial]
  rw [parse_range '-' (by decide) c.i1 c.i2, parse_range '+' (by decide) c.j1 c.j2]

theorem parseUdiff_plus_line (x : String) (rest : List String) (f1 : Option Nat) (v : Nat)
    (nl : List String) (nn : List Nat) (dl : List String) (dn : List Nat) :
    parseUdiff (("+" ++ x) :: rest) f1 (some v) nl nn dl dn =
      parseUdiff rest f1 (some (v + 1)) (nl ++ [pySlice1m2 ("+" ++ x)]) (nn ++ [v]) dl dn := by
  have hdata : ("+" ++ x) = String.mk ('+' :: x.data) := by
    apply strExt
    rw [String.data_append, show ("+" : String).data = ['+'] from rfl]
    rfl
  obtain ⟨t, ts, hts, hw⟩ := pySplitWs_cons '+' (by decide) x.data
  have hne : ¬(String.mk ('+' :: t) = "@@") := by
    intro h
    have h2 : '+' :: t = ['@', '@'] := congrArg String.data h
    have h3 : '+' = '@' := by injection h2
    exact absurd h3 (by decide)
  rw [hdata]
  simp only [parseUdiff, hw]
  rw [if_neg hne]
  rw [if_pos trivial]

theorem parseUdiff_minus_line (x : String) (rest : List String) (f2 : Option Nat) (v : Nat)
    (nl : List String) (nn : List Nat) (dl : List String) (dn : List Nat) :
    parseUdiff (("-" ++ x) :: rest) (some v) f2 nl nn dl dn =
      parseUdiff rest (some (v + 1)) f2 nl nn (dl ++ ["-" ++ x]) (dn ++ [v]) := by
  have hdata : ("-" ++ x) = String.mk ('-' :: x.data) := by
    apply strExt
    rw [String.data_append, show ("-" : String).data = ['-'] from rfl]
    rfl
  obtain ⟨t, ts, hts, hw⟩ := pySplitWs_cons '-' (by decide) x.data
  have hne : ¬(String.mk ('-' :: t) = "@@") := by
    intro h
    have h2 : '-' :: t = ['@', '@'] := congrArg String.data h
    have h3 : '-' = '@' := by injection h2
    exact absurd h3 (by decide)
  rw [hdata]
  simp only [parseUdiff, hw]
  rw [if_neg hne]
  rw [if_neg (by decide : ¬('-' = '+')), if_pos trivial]

theorem parseUdiff_plus_run (bl : List String) :
    ∀ (len j v : Nat) (rest : List String) (f1 : Option Nat) (nl : List String)
      (nn : List Nat) (dl : List String) (dn : List Nat),
    parseUdiff (((List.range' j len).map (fun t => "+" ++ bl.getD t "")) ++ rest)
        f1 (some v) nl nn dl dn =
      parseUdiff rest f1 (some (v + len))
        (nl ++ (List.range' j len).map (fun t => pySlice1m2 ("+" ++ bl.getD t "")))
        (nn ++ List.range' v len) dl dn := by
  intro len
  induction len with
  | zero => intro j v rest f1 nl nn dl dn; simp
  | succ n ih =>
    intro j v rest f1 nl nn dl dn
    simp only [List.range'_succ, List.map_cons, List.cons_append]
    rw [parseUdiff_plus_line,
      ih (j + 1) (v + 1) rest f1 (nl ++ [pySlice1m2 ("+" ++ bl.getD j "")]) (nn ++ [v]) dl dn]
    have hv : v + 1 + n = v + (n + 1) := by omega
    rw [hv, List.append_assoc, List.append_assoc, List.singleton_append, List.singleton_append]

theorem parseUdiff_minus_run (al : List String) :
    ∀ (len i v : Nat) (rest : List String) (f2 : Option Nat) (nl : List String)
      (nn : List Nat) (dl : List String) (dn : List Nat),
    parseUdiff (((List.range' i len).map (fun t => "-" ++ al.getD t "")) ++ rest)
        (some v) f2 nl nn dl dn =
      parseUdiff rest (some (v + len)) f2 nl nn
        (dl ++ (List.range' i len).map (fun t => "-" ++ al.getD t ""))
        (dn ++ List.range' v len) := by
  intro len
  induction len with
  | zero => intro i v rest f2 nl nn dl dn; simp
  | succ n ih =>
    intro i v rest f2 nl nn dl dn
    simp only [List.range'_succ, List.map_cons, List.cons_append]
    rw [parseUdiff_minus_line,
      ih (i + 1) (v + 1) rest f2 nl nn (dl ++ ["-" ++ al.getD i ""]) (dn ++ [v])]
    have hv : v + 1 + n = v + (n + 1) := by omega
    rw [hv, List.append_assoc, List.append_assoc, List.singleton_append, List.singleton_append]
theorem slice_map_plus (b : List String) (j1 j2 : Nat) (h1 : j1 ≤ j2) (h2 : j2 ≤ b.length) :
    (pySliceList b j1 j2).map (fun line => "+" ++ line) =
      (List.range' j1 (j2 - j1)).map (fun t => "+" ++ b.getD t "") := by
  have h := pySliceList_eq b (j2 - j1) j1 (by omega)
  rw [show j1 + (j2 - j1) = j2 by omega] at h
  rw [h, List.map_map]
  rfl

theorem slice_map_minus (a : List String) (i1 i2 : Nat) (h1 : i1 ≤ i2) (h2 : i2 ≤ a.length) :
    (pySliceList a i1 i2).map (fun line => "-" ++ line) =
      (List.range' i1 (i2 - i1)).map (fun t => "-" ++ a.getD t "") := by
  have h := pySliceList_eq a (i2 - i1) i1 (by omega)
  rw [show i1 + (i2 - i1) = i2 by omega] at h
  rw [h, List.map_map]
  rfl

theorem parseUdiff_hunk (a b : List String) (c : Opcode) (hc : c.tag ≠ Tag.equal)
    (hrep : c.tag = Tag.replace → c.i1 < c.i2 ∧ c.j1 < c.j2)
    (hdel : c.tag = Tag.delete → c.i1 < c.i2 ∧ c.j1 = c.j2)
    (hins : c.tag = Tag.insert → c.i1 = c.i2 ∧ c.j1 < c.j2)
    (h12 : c.i1 ≤ c.i2) (h34 : c.j1 ≤ c.j2)
    (ha : c.i2 ≤ a.length) (hb : c.j2 ≤ b.length)
    (rest : List String) (f1 f2 : Option Nat) (nl : List String) (nn : List Nat)
    (dl : List String) (dn : List Nat) :
    ∃ g1 g2 dl2,
      parseUdiff ((hunkHeader c :: renderOpcode a b c) ++ rest) f1 f2 nl nn dl dn =
        parseUdiff rest g1 g2
          (nl ++ (addedOfOpcode b c).map Prod.fst)
          (nn ++ (addedOfOpcode b c).map Prod.snd)
          dl2 (dn ++ deletedOfOpcode c) := by
  cases htag : c.tag with
  | equal => exact absurd htag hc
  | insert =>
    obtain ⟨hi, hj⟩ := hins htag
    have hf1v : fmtStart c.i1 c.i2 = c.i1 := by unfold fmtStart; rw [if_pos (by omega)]
    have hf2v : fmtStart c.j1 c.j2 = c.j1 + 1 := by unfold fmtStart; rw [if_neg (by omega)]
    have hrend : renderOpcode a b c =
        (List.range' c.j1 (c.j2 - c.j1)).map (fun t => "+" ++ b.getD t "") := by
      unfold renderOpcode
      rw [htag]
      exact slice_map_plus b c.j1 c.j2 h34 hb
    refine ⟨some c.i1, some (c.j1 + 1 + (c.j2 - c.j1)), dl, ?_⟩
    rw [List.cons_append, parseUdiff_header, hf1v, hf2v, hrend, parseUdiff_plus_run]
    simp only [addedOfOpcode, deletedOfOpcode, htag, List.map_map, List.append_nil]
    simp [Function.comp_def, range'_map_succ]
  | delete =>
    obtain ⟨hi, hj⟩ := hdel htag
    have hf1v : fmtStart c.i1 c.i2 = c.i1 + 1 := by unfold fmtStart; rw [if_neg (by omega)]
    have hf2v : fmtStart c.j1 c.j2 = c.j1 := by unfold fmtStart; rw [if_pos (by omega)]
    have hrend : renderOpcode a b c =
        (List.range' c.i1 (c.i2 - c.i1)).map (fun t => "-" ++ a.getD t "") := by
      unfold renderOpcode
      rw [htag]
      exact slice_map_minus a c.i1 c.i2 h12 ha
    refine ⟨some (c.i1 + 1 + (c.i2 - c.i1)), some c.j1,
      dl ++ (List.range' c.i1 (c.i2 - c.i1)).map (fun t => "-" ++ a.getD t ""), ?_⟩
    rw [List.cons_append, parseUdiff_header, hf1v, hf2v, hrend, parseUdiff_minus_run]
    simp only [addedOfOpcode, deletedOfOpcode, htag, List.map_map, List.append_nil]
    simp [Function.comp_def, range'_map_succ]
  | replace =>
    obtain ⟨hi, hj⟩ := hrep htag
    have hf1v : fmtStart c.i1 c.i2 = c.i1 + 1 := by unfold fmtStart; rw [if_neg (by omega)]
    have hf2v : fmtStart c.j1 c.j2 = c.j1 + 1 := by unfold fmtStart; rw [if_neg (by omega)]
    have hrend : renderOpcode a b c =
        (List.range' c.i1 (c.i2 - c.i1)).map (fun t => "-" ++ a.getD t "") ++
        (List.range' c.j1 (c.j2 - c.j1)).map (fun t => "+" ++ b.getD t "") := by
      unfold renderOpcode
      rw [htag]
      show (pySliceList a c.i1 c.i2).map (fun line => "-" ++ line) ++
        (pySliceList b c.j1 c.j2).map (fun line => "+" ++ line) = _
      rw [slice_map_minus a c.i1 c.i2 h12 ha, slice_map_plus b c.j1 c.j2 h34 hb]
    refine ⟨some (c.i1 + 1 + (c.i2 - c.i1)), some (c.j1 + 1 + (c.j2 - c.j1)),
      dl ++ (List.range' c.i1 (c.i2 - c.i1)).map (fun t => "-" ++ a.getD t ""), ?_⟩
    rw [List.cons_append, parseUdiff_header, hf1v, hf2v, hrend, List.append_assoc,
      parseUdiff_minus_run, parseUdiff_plus_run]
    simp only [addedOfOpcode, deletedOfOpcode, htag, List.map_map, List.append_nil]
    simp [Function.comp_def, range'_map_succ]

theorem rgSep_symm {r r2 : Rg} (h : rgSep r r2) : rgSep r2 r := by
  obtain ⟨alo1, ahi1, blo1, bhi1⟩ := r
  obtain ⟨alo2, ahi2, blo2, bhi2⟩ := r2
  simp only [rgSep] at h ⊢
  tauto

theorem gmb_post (a b : List String) (la lb : Nat) :
    ∀ fuel rs acc, qMeasure rs ≤ fuel → QInv a b la lb rs acc →
      (∀ x ∈ gmbFuel a b fuel rs acc, goodBlk a b la lb x) ∧
      List.Pairwise CoOrd (gmbFuel a b fuel rs acc) := by
  intro fuel
  induction fuel with
  | zero =>
    intro rs acc _ hq
    exact ⟨hq.2.1, hq.2.2.2.1⟩
  | succ n ih =>
    intro rs acc hm hq
    cases rs with
    | nil => exact ⟨hq.2.1, hq.2.2.2.1⟩
    | cons r rest =>
      obtain ⟨alo, ahi, blo, bhi⟩ := r
      obtain ⟨hval, hgood, hsep, hco, hrb⟩ := hq
      have hv := hval _ (List.mem_cons_self _ _)
      simp only [rgValid] at hv
      obtain ⟨h1, h2, h3, h4⟩ := hv
      have hmeas : rgMeasure (alo, ahi, blo, bhi) + qMeasure rest ≤ n + 1 := by
        simpa [qMeasure] using hm
      simp only [rgMeasure] at hmeas
      simp only [gmbFuel]
      by_cases hsz : (findLongestMatch a b alo ahi blo bhi).bestsize ≠ 0
      · rw [if_pos hsz]
        obtain ⟨hma, hmb, hmc, hmd⟩ := findLongestMatch_pos a b alo ahi blo bhi hsz
        have hmatch := (findLongestMatch_inv a b alo ahi blo bhi).2.2.2.2
        have hsz1 : 1 ≤ (findLongestMatch a b alo ahi blo bhi).bestsize :=
          Nat.one_le_iff_ne_zero.2 hsz
        set m := findLongestMatch a b alo ahi blo bhi with hmdef
        have hgb : goodBlk a b la lb (Blk.mk m.besti m.bestj m.bestsize) := by
          refine ⟨hsz1, ?_, ?_, hmatch⟩
          · show m.besti + m.bestsize ≤ la
            omega
          · show m.bestj + m.bestsize ≤ lb
            omega
        have hblkacc : ∀ x ∈ acc, CoOrd x (Blk.mk m.besti m.bestj m.bestsize) := by
          intro x hx
          have hs := hrb _ (List.mem_cons_self _ _) x hx
          simp only [rgBlkSep] at hs
          rcases hs with ⟨hh1, hh2⟩ | ⟨hh1, hh2⟩
          · exact Or.inr ⟨le_trans hmc hh1, le_trans hmd hh2⟩
          · exact Or.inl ⟨le_trans hh1 hma, le_trans hh2 hmb⟩
        have hrestblk : ∀ r2 ∈ rest, rgBlkSep r2 (Blk.mk m.besti m.bestj m.bestsize) := by
          intro r2 hr2
          have hs := List.rel_of_pairwise_cons hsep hr2
          obtain ⟨alo2, ahi2, blo2, bhi2⟩ := r2
          simp only [rgSep] at hs
          simp only [rgBlkSep]
          rcases hs with ⟨hh1, hh2⟩ | ⟨hh1, hh2⟩
          · exact Or.inr ⟨le_trans hmc hh1, le_trans hmd hh2⟩
          · exact Or.inl ⟨le_trans hh1 hma, le_trans hh2 hmb⟩
        have hr1v : rgValid la lb (alo, m.besti, blo, m.bestj) := by
          simp only [rgValid]
          omega
        have hr2v : rgValid la lb (m.besti + m.bestsize, ahi, m.bestj + m.bestsize, bhi) := by
          simp only [rgValid]
          omega
        have hsep12 : rgSep (alo, m.besti, blo, m.bestj)
            (m.besti + m.bestsize, ahi, m.bestj + m.bestsize, bhi) := by
          simp only [rgSep]
          omega
        have hsubacc : ∀ x ∈ acc, rgBlkSep (alo, m.besti, blo, m.bestj) x ∧
            rgBlkSep (m.besti + m.bestsize, ahi, m.bestj + m.bestsize, bhi) x := by
          intro x hx
          have hs := hrb _ (List.mem_cons_self _ _) x hx
          simp only [rgBlkSep] at hs ⊢
          rcases hs with ⟨hh1, hh2⟩ | ⟨hh1, hh2⟩
          · exact ⟨Or.inl ⟨by omega, by omega⟩, Or.inl ⟨by omega, by omega⟩⟩
          · exact ⟨Or.inr ⟨by omega, by omega⟩, Or.inr ⟨by omega, by omega⟩⟩
        have hsubrest : ∀ r2 ∈ rest, rgSep (alo, m.besti, blo, m.bestj) r2 ∧
            rgSep (m.besti + m.bestsize, ahi, m.bestj + m.bestsize, bhi) r2 := by
          intro r2 hr2
          have hs := List.rel_of_pairwise_cons hsep hr2
          obtain ⟨alo2, ahi2, blo2, bhi2⟩ := r2
          simp only [rgSep] at hs ⊢
          rcases hs with ⟨hh1, hh2⟩ | ⟨hh1, hh2⟩
          · exact ⟨Or.inl ⟨by omega, by omega⟩, Or.inl ⟨by omega, by omega⟩⟩
          · exact ⟨Or.inr ⟨by omega, by omega⟩, Or.inr ⟨by omega, by omega⟩⟩
        have hQgen : ∀ rs2 : List Rg, (∀ r2 ∈ rs2, rgValid la lb r2) →
            List.Pairwise rgSep rs2 → (∀ r2 ∈ rs2, ∀ x ∈ acc, rgBlkSep r2 x) →
            (∀ r2 ∈ rs2, rgBlkSep r2 (Blk.mk m.besti m.bestj m.bestsize)) →
            QInv a b la lb rs2 (acc ++ [Blk.mk m.besti m.bestj m.bestsize]) := by
          intro rs2 hv2 hs2 hba hbb
          refine ⟨hv2, ?_, hs2, ?_, ?_⟩
          · intro x hx
            rcases List.mem_append.1 hx with hx | hx
            · exact hgood x hx
            · rw [List.mem_singleton] at hx
              subst hx
              exact hgb
          · refine List.pairwise_append.2 ⟨hco, List.pairwise_singleton _ _, ?_⟩
            intro x hx y hy
            rw [List.mem_singleton] at hy
            subst hy
            exact hblkacc x hx
          · intro r2 hr2 x hx
            rcases List.mem_append.1 hx with hx | hx
            · exact hba r2 hr2 x hx
            · rw [List.mem_singleton] at hx
              subst hx
              exact hbb r2 hr2
        by_cases hp1 : alo < m.besti ∧ blo < m.bestj
        · rw [if_pos hp1]
          by_cases hp2 : m.besti + m.bestsize < ahi ∧ m.bestj + m.bestsize < bhi
          · rw [if_pos hp2]
            apply ih
            · simp only [qMeasure, List.map_cons, List.sum_cons, rgMeasure] at hmeas ⊢
              omega
            · apply hQgen
              · intro r2 hr2
                rcases List.mem_cons.1 hr2 with rfl | hr2
                · exact hr2v
                · rcases List.mem_cons.1 hr2 with rfl | hr2
                  · exact hr1v
                  · exact hval r2 (List.mem_cons_of_mem _ hr2)
              · refine List.pairwise_cons.2 ⟨?_, List.pairwise_cons.2 ⟨?_, hsep.of_cons⟩⟩
                · intro r2 hr2
                  rcases List.mem_cons.1 hr2 with rfl | hr2
                  · exact rgSep_symm hsep12
                  · exact (hsubrest r2 hr2).2
                · intro r2 hr2
                  exact (hsubrest r2 hr2).1
              · intro r2 hr2 x hx
                rcases List.mem_cons.1 hr2 with rfl | hr2
                · exact (hsubacc x hx).2
                · rcases List.mem_cons.1 hr2 with rfl | hr2
                  · exact (hsubacc x hx).1
                  · exact hrb r2 (List.mem_cons_of_mem _ hr2) x hx
              · intro r2 hr2
                rcases List.mem_cons.1 hr2 with rfl | hr2
                · exact Or.inr ⟨le_rfl, le_rfl⟩
                · rcases List.mem_cons.1 hr2 with rfl | hr2
                  · exact Or.inl ⟨le_rfl, le_rfl⟩
                  · exact hrestblk r2 hr2
          · rw [if_neg hp2]
            apply ih
            · simp only [qMeasure, List.map_cons, List.sum_cons, rgMeasure] at hmeas ⊢
              omega
            · apply hQgen
              · intro r2 hr2
                rcases List.mem_cons.1 hr2 with rfl | hr2
                · exact hr1v
                · exact hval r2 (List.mem_cons_of_mem _ hr2)
              · refine List.pairwise_cons.2 ⟨?_, hsep.of_cons⟩
                intro r2 hr2
                exact (hsubrest r2 hr2).1
              · intro r2 hr2 x hx
                rcases List.mem_cons.1 hr2 with rfl | hr2
                · exact (hsubacc x hx).1
                · exact hrb r2 (List.mem_cons_of_mem _ hr2) x hx
              · intro r2 hr2
                rcases List.mem_cons.1 hr2 with rfl | hr2
                · exact Or.inl ⟨le_rfl, le_rfl⟩
                · exact hrestblk r2 hr2
        · rw [if_neg hp1]
          by_cases hp2 : m.besti + m.bestsize < ahi ∧ m.bestj + m.bestsize < bhi
          · rw [if_pos hp2]
            apply ih
            · simp only [qMeasure, List.map_cons, List.sum_cons, rgMeasure] at hmeas ⊢
              omega
            · apply hQgen
              · intro r2 hr2
                rcases List.mem_cons.1 hr2 with rfl | hr2
                · exact hr2v
                · exact hval r2 (List.mem_cons_of_mem _ hr2)
              · refine List.pairwise_cons.2 ⟨?_, hsep.of_cons⟩
                intro r2 hr2
                exact (hsubrest r2 hr2).2
              · intro r2 hr2 x hx
                rcases List.mem_cons.1 hr2 with rfl | hr2
                · exact (hsubacc x hx).2
                · exact hrb r2 (List.mem_cons_of_mem _ hr2) x hx
              · intro r2 hr2
                rcases List.mem_cons.1 hr2 with rfl | hr2
                · exact Or.inr ⟨le_rfl, le_rfl⟩
                · exact hrestblk r2 hr2
          · rw [if_neg hp2]
            apply ih
            · simp only [qMeasure, List.map_cons, List.sum_cons, rgMeasure] at hmeas ⊢
              omega
            · apply hQgen
              · intro r2 hr2
                exact hval r2 (List.mem_cons_of_mem _ hr2)
              · exact hsep.of_cons
              · intro r2 hr2 x hx
                exact hrb r2 (List.mem_cons_of_mem _ hr2) x hx
              · intro r2 hr2
                exact hrestblk r2 hr2
      · rw [if_neg hsz]
        apply ih
        · simp only [qMeasure, List.map_cons, List.sum_cons, rgMeasure] at hm ⊢
          omega
        · refine ⟨fun r2 hr2 => hval r2 (List.mem_cons_of_mem _ hr2), hgood,
            hsep.of_cons, hco, fun r2 hr2 => hrb r2 (List.mem_cons_of_mem _ hr2)⟩

instance : IsTotal Blk blkLE := ⟨by
  intro x y
  simp only [blkLE]
  omega⟩

instance : IsTrans Blk blkLE := ⟨by
  intro x y z hxy hyz
  simp only [blkLE] at hxy hyz ⊢
  omega⟩

theorem pairwise_dom_of_sorted :
    ∀ l : List Blk, (∀ y ∈ l, 1 ≤ y.size) → List.Pairwise blkLE l →
      List.Pairwise CoOrd l → List.Pairwise Dom l := by
  intro l
  induction l with
  | nil => intro _ _ _; exact List.Pairwise.nil
  | cons x l ih =>
    intro hsz hle hco
    rw [List.pairwise_cons] at hle hco ⊢
    refine ⟨?_, ih (fun y hy => hsz y (List.mem_cons_of_mem _ hy)) hle.2 hco.2⟩
    intro y hy
    have h1 := hle.1 y hy
    have h2 := hco.1 y hy
    have h3 := hsz y (List.mem_cons_of_mem _ hy)
    rcases h2 with h2 | h2
    · exact h2
    · simp only [blkLE] at h1
      simp only [Dom] at h2 ⊢
      omega

theorem blocksOk_cons (a b : List String) (la lb : Nat) (c : Blk) (L : List Blk)
    (i j : Nat) (prevEq : Bool) (h1 : i ≤ c.ai) (h2 : j ≤ c.bj) (h3 : 1 ≤ c.size)
    (h4 : prevEq = true → ¬(i = c.ai ∧ j = c.bj))
    (h5 : ∀ t, t < c.size → a.getD (c.ai + t) "" = b.getD (c.bj + t) "")
    (h6 : BlocksOk a b la lb (c.ai + c.size) (c.bj + c.size) true L) :
    BlocksOk a b la lb i j prevEq (c :: L) := by
  cases L with
  | nil =>
    simp only [BlocksOk] at h6
  | cons t L2 => exact ⟨h1, h2, h3, h4, h5, h6⟩

theorem mergeAdj_ok (a b : List String) (la lb : Nat) :
    ∀ blks cur i j (prevEq : Bool),
      i ≤ cur.ai → j ≤ cur.bj →
      cur.ai + cur.size ≤ la → cur.bj + cur.size ≤ lb →
      (∀ t, t < cur.size → a.getD (cur.ai + t) "" = b.getD (cur.bj + t) "") →
      (∀ x ∈ blks, x.ai + x.size ≤ la ∧ x.bj + x.size ≤ lb ∧
        ∀ t, t < x.size → a.getD (x.ai + t) "" = b.getD (x.bj + t) "") →
      List.Pairwise Dom (cur :: blks) →
      (prevEq = true → ¬(i = cur.ai ∧ j = cur.bj)) →
      BlocksOk a b la lb i j prevEq (mergeAdj cur blks ++ [Blk.mk la lb 0]) := by
  intro blks
  induction blks with
  | nil =>
    intro cur i j prevEq hi hj hla hlb hmatch _ _ hprev
    simp only [mergeAdj]
    by_cases hsz : cur.size ≠ 0
    · rw [if_pos hsz]
      refine ⟨hi, hj, by omega, hprev, hmatch, rfl, rfl, rfl, by omega, by omega⟩
    · rw [if_neg hsz]
      exact ⟨rfl, rfl, rfl, by omega, by omega⟩
  | cons blk rest ih =>
    intro cur i j prevEq hi hj hla hlb hmatch hgood hpair hprev
    simp only [mergeAdj]
    have hdom : Dom cur blk := (List.pairwise_cons.1 hpair).1 blk (List.mem_cons_self _ _)
    obtain ⟨hdom1, hdom2⟩ := hdom
    have hgb := hgood blk (List.mem_cons_self _ _)
    by_cases hmerge : cur.ai + cur.size = blk.ai ∧ cur.bj + cur.size = blk.bj
    · rw [if_pos hmerge]
      apply ih (Blk.mk cur.ai cur.bj (cur.size + blk.size)) i j prevEq hi hj
      · show cur.ai + (cur.size + blk.size) ≤ la
        have := hgb.1
        omega
      · show cur.bj + (cur.size + blk.size) ≤ lb
        have := hgb.2.1
        omega
      · intro t ht
        have ht2 : t < cur.size + blk.size := ht
        by_cases htc : t < cur.size
        · exact hmatch t htc
        · have h5 : cur.ai + t = blk.ai + (t - cur.size) := by omega
          have h6 : cur.bj + t = blk.bj + (t - cur.size) := by omega
          show a.getD (cur.ai + t) "" = b.getD (cur.bj + t) ""
          rw [h5, h6]
          exact hgb.2.2 (t - cur.size) (by
            show t - cur.size < blk.size
            omega)
      · exact fun x hx => hgood x (List.mem_cons_of_mem _ hx)
      · refine List.pairwise_cons.2 ⟨?_, (hpair.of_cons).of_cons⟩
        intro y hy
        have hby := List.rel_of_pairwise_cons hpair.of_cons hy
        obtain ⟨hb1, hb2⟩ := hby
        exact ⟨by show cur.ai + (cur.size + blk.size) ≤ y.ai; omega,
          by show cur.bj + (cur.size + blk.size) ≤ y.bj; omega⟩
      · exact hprev
    · rw [if_neg hmerge]
      by_cases hsz : cur.size ≠ 0
      · rw [if_pos hsz]
        rw [List.append_assoc, List.singleton_append]
        apply blocksOk_cons a b la lb cur _ i j prevEq hi hj (by omega) hprev hmatch
        apply ih blk (cur.ai + cur.size) (cur.bj + cur.size) true hdom1 hdom2
          hgb.1 hgb.2.1 hgb.2.2
          (fun x hx => hgood x (List.mem_cons_of_mem _ hx)) hpair.of_cons
          (fun _ => hmerge)
      · rw [if_neg hsz]
        simp only [List.nil_append]
        apply ih blk i j prevEq (by omega) (by omega) hgb.1 hgb.2.1 hgb.2.2
          (fun x hx => hgood x (List.mem_cons_of_mem _ hx)) hpair.of_cons
        intro hp hc
        exact absurd (show cur.ai + cur.size = blk.ai ∧ cur.bj + cur.size = blk.bj by omega)
          hmerge

theorem getMatchingBlocks_ok (a b : List String) :
    BlocksOk a b a.length b.length 0 0 false (getMatchingBlocks a b) := by
  have hQ : QInv a b a.length b.length [(0, a.length, 0, b.length)] [] := by
    refine ⟨?_, ?_, List.pairwise_singleton _ _, List.Pairwise.nil, ?_⟩
    · intro r hr
      rw [List.mem_singleton] at hr
      subst hr
      exact ⟨Nat.zero_le _, le_rfl, Nat.zero_le _, le_rfl⟩
    · intro x hx
      cases hx
    · intro r hr x hx
      cases hx
  have hpost := gmb_post a b a.length b.length (a.length + b.length + 1)
    [(0, a.length, 0, b.length)] []
    (by simp [qMeasure, rgMeasure]) hQ
  obtain ⟨hgood, hco⟩ := hpost
  have hperm : (List.insertionSort blkLE
      (gmbFuel a b (a.length + b.length + 1) [(0, a.length, 0, b.length)] [])).Perm
      (gmbFuel a b (a.length + b.length + 1) [(0, a.length, 0, b.length)] []) :=
    List.perm_insertionSort blkLE _
  have hgood2 : ∀ x ∈ List.insertionSort blkLE
      (gmbFuel a b (a.length + b.length + 1) [(0, a.length, 0, b.length)] []),
      goodBlk a b a.length b.length x := fun x hx => hgood x (hperm.subset hx)
  have hco2 := (hperm.pairwise_iff (fun {x y} h => Or.symm h)).2 hco
  have hsortpair : List.Pairwise blkLE (List.insertionSort blkLE
      (gmbFuel a b (a.length + b.length + 1) [(0, a.length, 0, b.length)] [])) :=
    List.sorted_insertionSort blkLE _
  have hdom := pairwise_dom_of_sorted _ (fun y hy => (hgood2 y hy).1) hsortpair hco2
  show BlocksOk a b a.length b.length 0 0 false
    (mergeAdj (Blk.mk 0 0 0) (List.insertionSort blkLE
      (gmbFuel a b (a.length + b.length + 1) [(0, a.length, 0, b.length)] [])) ++
      [Blk.mk a.length b.length 0])
  apply mergeAdj_ok a b a.length b.length _ (Blk.mk 0 0 0) 0 0 false le_rfl le_rfl
    (Nat.zero_le _) (Nat.zero_le _)
    (by intro t ht; exact absurd ht (Nat.not_lt_zero t))
    (fun x hx => ⟨(hgood2 x hx).2.1, (hgood2 x hx).2.2.1, (hgood2 x hx).2.2.2⟩)
    (List.pairwise_cons.2 ⟨fun y _ => ⟨Nat.zero_le _, Nat.zero_le _⟩, hdom⟩)
    (by intro h; exact absurd h (by decide))

theorem blocksOk_le (a b : List String) (la lb : Nat) :
    ∀ l i j p, BlocksOk a b la lb i j p l → i ≤ la ∧ j ≤ lb := by
  intro l
  induction l with
  | nil =>
    intro i j p h
    simp only [BlocksOk] at h
  | cons blk rest ih =>
    intro i j p h
    cases rest with
    | nil =>
      obtain ⟨h0, h1, h2, h3, h4⟩ := h
      exact ⟨h3, h4⟩
    | cons t rest2 =>
      obtain ⟨h1, h2, h3, h4, h5, h6⟩ := h
      have hb := ih _ _ _ h6
      omega

theorem getOpcodesGo_ok (a b : List String) (la lb : Nat) :
    ∀ blks i j (prevEq : Bool), BlocksOk a b la lb i j prevEq blks →
      CodesOk a b la lb i j (if prevEq then some true else none) (getOpcodesGo i j blks) := by
  intro blks
  induction blks with
  | nil =>
    intro i j p h
    simp only [BlocksOk] at h
  | cons blk rest ih =>
    intro i j prevEq h
    have hflag : (if prevEq then some true else none : Option Bool) ≠ some false := by
      cases prevEq <;> simp
    cases rest with
    | nil =>
      obtain ⟨hs0, hsa, hsb, hia, hjb⟩ := h
      simp only [getOpcodesGo]
      rw [if_neg (show ¬blk.size ≠ 0 by omega)]
      simp only [List.append_nil, List.nil_append]
      by_cases hij : i < blk.ai ∧ j < blk.bj
      · rw [if_pos hij]
        refine ⟨rfl, rfl, show blk.ai ≤ la by omega, show blk.bj ≤ lb by omega,
          Or.inr ⟨?_, hflag, ?_, ?_, ?_, ?_⟩⟩
        · intro hx
          exact nomatch hx
        · intro hx
          exact hij
        · intro hx
          exact nomatch hx
        · intro hx
          exact nomatch hx
        · exact ⟨hsa, hsb⟩
      · rw [if_neg hij]
        by_cases hi2 : i < blk.ai
        · rw [if_pos hi2]
          have hjeq : j = blk.bj := by omega
          refine ⟨rfl, rfl, show blk.ai ≤ la by omega, show blk.bj ≤ lb by omega,
            Or.inr ⟨?_, hflag, ?_, ?_, ?_, ?_⟩⟩
          · intro hx
            exact nomatch hx
          · intro hx
            exact nomatch hx
          · intro hx
            exact ⟨hi2, hjeq⟩
          · intro hx
            exact nomatch hx
          · exact ⟨hsa, hsb⟩
        · rw [if_neg hi2]
          by_cases hj2 : j < blk.bj
          · rw [if_pos hj2]
            have hieq : i = blk.ai := by omega
            refine ⟨rfl, rfl, show blk.ai ≤ la by omega, show blk.bj ≤ lb by omega,
              Or.inr ⟨?_, hflag, ?_, ?_, ?_, ?_⟩⟩
            · intro hx
              exact nomatch hx
            · intro hx
              exact nomatch hx
            · intro hx
              exact nomatch hx
            · intro hx
              exact ⟨hieq, hj2⟩
            · exact ⟨hsa, hsb⟩
          · rw [if_neg hj2]
            exact ⟨by omega, by omega⟩
    | cons t rest2 =>
      obtain ⟨h1, h2, h3, h4, h5, h6⟩ := h
      have hbound := blocksOk_le a b la lb _ _ _ _ h6
      have hrec := ih (blk.ai + blk.size) (blk.bj + blk.size) true h6
      simp only [getOpcodesGo]
      rw [if_pos (show blk.size ≠ 0 by omega)]
      have hE : ∀ f : Option Bool, f ≠ some true → CodesOk a b la lb blk.ai blk.bj f
          (Opcode.mk Tag.equal blk.ai (blk.ai + blk.size) blk.bj (blk.bj + blk.size) ::
            getOpcodesGo (blk.ai + blk.size) (blk.bj + blk.size) (t :: rest2)) := by
        intro f hf
        refine ⟨rfl, rfl, show blk.ai + blk.size ≤ la by omega,
          show blk.bj + blk.size ≤ lb by omega,
          Or.inl ⟨rfl, hf, show blk.ai < blk.ai + blk.size by omega,
            show blk.ai + blk.size - blk.ai = blk.bj + blk.size - blk.bj by omega, ?_, hrec⟩⟩
        intro t2 ht2
        have ht3 : t2 < blk.size := by
          have ht4 : t2 < blk.ai + blk.size - blk.ai := ht2
          omega
        exact h5 t2 ht3
      by_cases hij : i < blk.ai ∧ j < blk.bj
      · rw [if_pos hij]
        simp only [List.singleton_append]
        refine ⟨rfl, rfl, show blk.ai ≤ la by omega, show blk.bj ≤ lb by omega,
          Or.inr ⟨?_, hflag, ?_, ?_, ?_, hE (some false) (by decide)⟩⟩
        · intro hx
          exact nomatch hx
        · intro hx
          exact hij
        · intro hx
          exact nomatch hx
        · intro hx
          exact nomatch hx
      · rw [if_neg hij]
        by_cases hi2 : i < blk.ai
        · rw [if_pos hi2]
          have hjeq : j = blk.bj := by omega
          simp only [List.singleton_append]
          refine ⟨rfl, rfl, show blk.ai ≤ la by omega, show blk.bj ≤ lb by omega,
            Or.inr ⟨?_, hflag, ?_, ?_, ?_, hE (some false) (by decide)⟩⟩
          · intro hx
            exact nomatch hx
          · intro hx
            exact nomatch hx
          · intro hx
            exact ⟨hi2, hjeq⟩
          · intro hx
            exact nomatch hx
        · rw [if_neg hi2]
          by_cases hj2 : j < blk.bj
          · rw [if_pos hj2]
            have hieq : i = blk.ai := by omega
            simp only [List.singleton_append]
            refine ⟨rfl, rfl, show blk.ai ≤ la by omega, show blk.bj ≤ lb by omega,
              Or.inr ⟨?_, hflag, ?_, ?_, ?_, hE (some false) (by decide)⟩⟩
            · intro hx
              exact nomatch hx
            · intro hx
              exact nomatch hx
            · intro hx
              exact nomatch hx
            · intro hx
              exact ⟨hieq, hj2⟩
          · rw [if_neg hj2]
            have hieq : i = blk.ai := by omega
            have hjeq : j = blk.bj := by omega
            have hpe : prevEq = false := by
              cases prevEq
              · rfl
              · exact absurd ⟨hieq, hjeq⟩ (h4 rfl)
            subst hieq
            subst hjeq
            rw [hpe]
            simp only [List.nil_append, List.singleton_append]
            exact hE _ (by decide)

theorem getOpcodes_ok (a b : List String) :
    CodesOk a b a.length b.length 0 0 none (getOpcodes a b) :=
  getOpcodesGo_ok a b a.length b.length (getMatchingBlocks a b) 0 0 false
    (getMatchingBlocks_ok a b)

theorem nonEqual_cons_ne {c : Opcode} (cs : List Opcode) (h : c.tag ≠ Tag.equal) :
    nonEqual (c :: cs) = c :: nonEqual cs := by
  simp [nonEqual, h]

theorem nonEqual_cons_eq {c : Opcode} (cs : List Opcode) (h : c.tag = Tag.equal) :
    nonEqual (c :: cs) = nonEqual cs := by
  simp [nonEqual, h]

theorem adjustLast_ne_nil (n : Nat) : ∀ c cs, adjustLast n (c :: cs) ≠ [] := by
  intro c cs
  cases cs with
  | nil =>
    simp only [adjustLast]
    split
    · exact List.cons_ne_nil _ _
    · exact List.cons_ne_nil _ _
  | cons c2 cs2 => exact List.cons_ne_nil _ _

theorem renderOpcode_zeroEq (a b : List String) (i j : Nat) :
    renderOpcode a b (zeroEq i j) = [] := by
  simp [renderOpcode, zeroEq, pySliceList_zero]

theorem renderGroup_flush (a b : List String) (gpre : List Opcode) (N : Opcode)
    (tail : List Opcode)
    (hpre : gpre = [] ∨ gpre = [zeroEq N.i1 N.j1])
    (htail : tail = [] ∨ tail = [zeroEq N.i2 N.j2]) :
    renderGroup a b (gpre ++ [N] ++ tail) = hunkHeader N :: renderOpcode a b N := by
  rcases hpre with rfl | rfl <;> rcases htail with rfl | rfl <;>
    simp [renderGroup, hunkHeader, renderOpcode, zeroEq, pySliceList_zero, List.getLastD]

theorem groupedLoop_render (a b : List String) (la lb : Nat) :
    ∀ (cs : List Opcode) (st : Bool) (i j : Nat), AdjOk a b la lb st i j cs →
    ∀ (g : List Opcode) (out : List (List Opcode)),
    (cond st (∃ gpre N, g = gpre ++ [N] ∧ N.tag ≠ Tag.equal ∧ N.i2 = i ∧ N.j2 = j ∧
        (gpre = [] ∨ gpre = [zeroEq N.i1 N.j1]))
      (g = [] ∨ g = [zeroEq i j])) →
    (groupedLoop 0 cs g out).flatMap (renderGroup a b) =
      out.flatMap (renderGroup a b) ++
      (cond st (hunkHeader (g.getLastD dummyOp) :: renderOpcode a b (g.getLastD dummyOp)) []) ++
      (nonEqual cs).flatMap (fun c => hunkHeader c :: renderOpcode a b c) := by
  intro cs
  induction cs with
  | nil =>
    intro st i j hadj g out hg
    cases st with
    | false => exact False.elim hadj
    | true =>
      obtain ⟨gpre, N, hgeq, hN, hNi, hNj, hpre⟩ := hg
      have hflush : g ≠ [] ∧ ¬(g.length = 1 ∧ (g.headD dummyOp).tag = Tag.equal) := by
        subst hgeq
        rcases hpre with rfl | rfl
        · exact ⟨by simp, fun h => hN h.2⟩
        · exact ⟨by simp, fun h => absurd h.1 (by simp)⟩
      simp only [groupedLoop]
      rw [if_pos hflush]
      rw [List.flatMap_append]
      simp only [List.flatMap_cons, List.flatMap_nil, List.append_nil]
      have hrg := renderGroup_flush a b gpre N [] hpre (Or.inl rfl)
      rw [List.append_nil] at hrg
      rw [hgeq, hrg, List.getLastD_concat]
      simp [nonEqual, Bool.cond_true]
  | cons c cs2 ih =>
    intro st i j hadj g out hg
    cases st with
    | false =>
      replace hg : g = [] ∨ g = [zeroEq i j] := hg
      obtain ⟨hcne, hci, hcj, h12, h34, hla, hlb, hrep, hdel, hins, hrest⟩ := hadj
      simp only [groupedLoop]
      rw [if_neg (fun h => hcne h.1)]
      have hginv : ∃ gpre N, g ++ [c] = gpre ++ [N] ∧ N.tag ≠ Tag.equal ∧
          N.i2 = c.i2 ∧ N.j2 = c.j2 ∧ (gpre = [] ∨ gpre = [zeroEq N.i1 N.j1]) := by
        refine ⟨g, c, rfl, hcne, rfl, rfl, ?_⟩
        rcases hg with rfl | rfl
        · exact Or.inl rfl
        · right
          rw [hci, hcj]
      rw [ih true c.i2 c.j2 hrest (g ++ [c]) out hginv]
      rw [List.getLastD_concat, nonEqual_cons_ne cs2 hcne]
      simp only [Bool.cond_true, Bool.cond_false, List.flatMap_cons, List.nil_append,
        List.append_assoc, List.cons_append]
    | true =>
      obtain ⟨gpre, N, hgeq, hN, hNi, hNj, hpre⟩ := hg
      obtain ⟨hceq, hci, hcj, hrest⟩ := hadj
      cases cs2 with
      | nil =>
        obtain ⟨hz1, hz2⟩ := hrest
        simp only [groupedLoop]
        rw [if_neg (fun h => absurd h.2 (by omega))]
        have hflush : g ++ [c] ≠ [] ∧
            ¬((g ++ [c]).length = 1 ∧ ((g ++ [c]).headD dummyOp).tag = Tag.equal) := by
          refine ⟨by simp, fun h => ?_⟩
          have h1 := h.1
          rw [hgeq] at h1
          simp at h1
        rw [if_pos hflush]
        rw [List.flatMap_append]
        simp only [List.flatMap_cons, List.flatMap_nil, List.append_nil]
        have e1 : c.i1 = N.i2 := by rw [hci, hNi]
        have e2 : c.i2 = N.i2 := by rw [hz1]; exact e1
        have e3 : c.j1 = N.j2 := by rw [hcj, hNj]
        have e4 : c.j2 = N.j2 := by rw [hz2]; exact e3
        have hc : c = zeroEq N.i2 N.j2 := by
          have hcc : c = Opcode.mk c.tag c.i1 c.i2 c.j1 c.j2 := rfl
          rw [hcc, hceq, e1, e2, e3, e4]
          rfl
        have hrg := renderGroup_flush a b gpre N [c] hpre (Or.inr (by rw [hc]))
        rw [← hgeq] at hrg
        rw [hrg, hgeq, List.getLastD_concat, nonEqual_cons_eq _ hceq]
        simp [nonEqual, Bool.cond_true]
      | cons c2 cs3 =>
        obtain ⟨hpos, hpos2, hrest2⟩ := hrest
        rw [groupedLoop]
        rw [if_pos ⟨hceq, by omega⟩]
        have hmax : (⟨Tag.equal, max c.i1 (c.i2 - 0), c.i2, max c.j1 (c.j2 - 0), c.j2⟩ : Opcode) =
            zeroEq c.i2 c.j2 := by
          simp only [zeroEq, Nat.sub_zero]
          congr 1 <;> omega
        have hmin : (⟨Tag.equal, c.i1, min c.i2 (c.i1 + 0), c.j1, min c.j2 (c.j1 + 0)⟩ : Opcode) =
            zeroEq c.i1 c.j1 := by
          simp only [zeroEq, Nat.add_zero]
          congr 1 <;> omega
        rw [hmax, hmin]
        rw [ih false c.i2 c.j2 hrest2 [zeroEq c.i2 c.j2]
          (out ++ [g ++ [zeroEq c.i1 c.j1]]) (Or.inr rfl)]
        simp only [Bool.cond_false, Bool.cond_true, List.flatMap_append, List.flatMap_cons,
          List.flatMap_nil, List.append_nil, List.nil_append]
        have hzc : zeroEq c.i1 c.j1 = zeroEq N.i2 N.j2 := by
          rw [hci, hcj, hNi, hNj]
        have hrg := renderGroup_flush a b gpre N [zeroEq c.i1 c.j1] hpre (Or.inr (by rw [hzc]))
        rw [← hgeq] at hrg
        rw [hrg, hgeq, List.getLastD_concat, nonEqual_cons_eq _ hceq]

theorem nonEqual_adjustLast : ∀ cs, nonEqual (adjustLast 0 cs) = nonEqual cs := by
  intro cs
  induction cs with
  | nil => rfl
  | cons c cs2 ih =>
    cases cs2 with
    | nil =>
      simp only [adjustLast]
      by_cases hc : c.tag = Tag.equal
      · rw [if_pos hc]
        simp [nonEqual, hc]
      · rw [if_neg hc]
    | cons c2 cs3 =>
      have hstep : adjustLast 0 (c :: c2 :: cs3) = c :: adjustLast 0 (c2 :: cs3) := rfl
      rw [hstep]
      by_cases hc : c.tag = Tag.equal
      · rw [nonEqual_cons_eq _ hc, nonEqual_cons_eq _ hc, ih]
      · rw [nonEqual_cons_ne _ hc, nonEqual_cons_ne _ hc, ih]

theorem codesOk_adjustLast (a b : List String) (la lb : Nat) :
    ∀ (cs : List Opcode) (i j : Nat) (f : Option Bool), CodesOk a b la lb i j f cs →
      (∀ c cs2, cs = c :: cs2 → c.tag ≠ Tag.equal →
        AdjOk a b la lb false i j (adjustLast 0 cs)) ∧
      (∀ c cs2, cs = c :: cs2 → c.tag = Tag.equal →
        AdjOk a b la lb true i j (adjustLast 0 cs)) := by
  intro cs
  induction cs with
  | nil =>
    intro i j f h
    constructor
    · intro c cs2 he
      exact nomatch he
    · intro c cs2 he
      exact nomatch he
  | cons c cs2 ih =>
    intro i j f h
    obtain ⟨hci, hcj, hla, hlb, hbranch⟩ := h
    constructor
    · intro c2 cs3 he hcne
      injection he with h1 h2
      subst h1
      subst h2
      rcases hbranch with ⟨hceq, _⟩ | ⟨_, _, hrep, hdel, hins, hrest⟩
      · exact absurd hceq hcne
      have hle : c.i1 ≤ c.i2 ∧ c.j1 ≤ c.j2 := by
        cases hct : c.tag with
        | replace =>
          have hx := hrep hct
          omega
        | delete =>
          have hx := hdel hct
          omega
        | insert =>
          have hx := hins hct
          omega
        | equal => exact absurd hct hcne
      cases cs2 with
      | nil =>
        have hal : adjustLast 0 [c] = [c] := by
          simp only [adjustLast]
          rw [if_neg hcne]
        rw [hal]
        refine ⟨hcne, hci, hcj, hle.1, hle.2, hla, hlb, hrep, hdel, hins, ?_⟩
        exact trivial
      | cons d ds =>
        have hal : adjustLast 0 (c :: d :: ds) = c :: adjustLast 0 (d :: ds) := rfl
        rw [hal]
        have hdeq : d.tag = Tag.equal := by
          obtain ⟨_, _, _, _, hb2⟩ := hrest
          rcases hb2 with ⟨he2, _⟩ | ⟨_, hf2, _⟩
          · exact he2
          · exact absurd rfl hf2
        have htail := (ih c.i2 c.j2 (some false) hrest).2 d ds rfl hdeq
        exact ⟨hcne, hci, hcj, hle.1, hle.2, hla, hlb, hrep, hdel, hins, htail⟩
    · intro c2 cs3 he hceq
      injection he with h1 h2
      subst h1
      subst h2
      rcases hbranch with ⟨_, _, hpos, hdiff, hmatch, hrest⟩ | ⟨hne, _⟩
      swap
      · exact absurd hceq hne
      cases cs2 with
      | nil =>
        have hal : adjustLast 0 [c] =
            [⟨c.tag, c.i1, min c.i2 (c.i1 + 0), c.j1, min c.j2 (c.j1 + 0)⟩] := by
          simp only [adjustLast]
          rw [if_pos hceq]
        rw [hal]
        refine ⟨hceq, hci, hcj, ?_, ?_⟩
        · show min c.i2 (c.i1 + 0) = c.i1
          omega
        · show min c.j2 (c.j1 + 0) = c.j1
          omega
      | cons d ds =>
        have hal : adjustLast 0 (c :: d :: ds) = c :: adjustLast 0 (d :: ds) := rfl
        rw [hal]
        have hdne : d.tag ≠ Tag.equal := by
          obtain ⟨_, _, _, _, hb2⟩ := hrest
          rcases hb2 with ⟨_, hf2, _⟩ | ⟨hne2, _⟩
          · exact absurd rfl hf2
          · exact hne2
        have hadj2 := (ih c.i2 c.j2 (some true) hrest).1 d ds rfl hdne
        obtain ⟨x, xs, hx⟩ : ∃ x xs, adjustLast 0 (d :: ds) = x :: xs := by
          cases hh : adjustLast 0 (d :: ds) with
          | nil => exact absurd hh (adjustLast_ne_nil 0 d ds)
          | cons x xs => exact ⟨x, xs, rfl⟩
        rw [hx]
        rw [hx] at hadj2
        exact ⟨hceq, hci, hcj, hpos, by omega, hadj2⟩

theorem grouped_render (a b : List String) :
    (groupedOpcodes 0 a b).flatMap (renderGroup a b) =
      (nonEqual (getOpcodes a b)).flatMap (fun c => hunkHeader c :: renderOpcode a b c) := by
  have hcodes := getOpcodes_ok a b
  cases hc : getOpcodes a b with
  | nil =>
    simp only [groupedOpcodes]
    rw [hc]
    rfl
  | cons c cs =>
    rw [hc] at hcodes
    have hcodes2 := hcodes
    obtain ⟨hci, hcj, hla, hlb, hbranch⟩ := hcodes
    have hgo : groupedOpcodes 0 a b =
        groupedLoop 0 (adjustLast 0 (adjustFirst 0 (c :: cs))) [] [] := by
      simp only [groupedOpcodes]
      rw [hc]
      rw [if_neg (List.cons_ne_nil c cs)]
    rw [hgo]
    rcases hbranch with ⟨hceq, _, hpos, hdiff, hmatch, hrest⟩ | ⟨hcne, _, hrep, hdel, hins, hrest⟩
    · have haf : adjustFirst 0 (c :: cs) = zeroEq c.i2 c.j2 :: cs := by
        simp only [adjustFirst]
        rw [if_pos hceq]
        congr 1
        simp only [zeroEq, Nat.sub_zero]
        congr 1 <;> omega
      rw [haf]
      cases cs with
      | nil =>
        have hal : adjustLast 0 [zeroEq c.i2 c.j2] = [zeroEq c.i2 c.j2] := by
          simp only [adjustLast]
          rw [if_pos (show (zeroEq c.i2 c.j2).tag = Tag.equal from rfl)]
          congr 1
          simp only [zeroEq]
          congr 1 <;> omega
        rw [hal]
        have hloop : groupedLoop 0 [zeroEq c.i2 c.j2] [] [] = [] := by
          simp only [groupedLoop]
          rw [if_neg (fun h => by simp [zeroEq] at h)]
          rw [if_neg (fun h => h.2 ⟨rfl, rfl⟩)]
        rw [hloop, nonEqual_cons_eq _ hceq]
        rfl
      | cons c2 cs2 =>
        have hal : adjustLast 0 (zeroEq c.i2 c.j2 :: c2 :: cs2) =
            zeroEq c.i2 c.j2 :: adjustLast 0 (c2 :: cs2) := rfl
        rw [hal]
        rw [groupedLoop]
        rw [if_neg (fun h => by simp [zeroEq] at h)]
        simp only [List.nil_append]
        have hc2ne : c2.tag ≠ Tag.equal := by
          obtain ⟨_, _, _, _, hb2⟩ := hrest
          rcases hb2 with ⟨_, hf2, _⟩ | ⟨hne2, _⟩
          · exact absurd rfl hf2
          · exact hne2
        have hadj := (codesOk_adjustLast a b a.length b.length (c2 :: cs2) c.i2 c.j2
          (some true) hrest).1 c2 cs2 rfl hc2ne
        rw [groupedLoop_render a b a.length b.length (adjustLast 0 (c2 :: cs2)) false
          c.i2 c.j2 hadj [zeroEq c.i2 c.j2] [] (Or.inr rfl)]
        rw [nonEqual_adjustLast, nonEqual_cons_eq _ hceq]
        simp
    · have haf : adjustFirst 0 (c :: cs) = c :: cs := by
        simp only [adjustFirst]
        rw [if_neg hcne]
      rw [haf]
      have hadj := (codesOk_adjustLast a b a.length b.length (c :: cs) 0 0 none
        hcodes2).1 c cs rfl hcne
      rw [groupedLoop_render a b a.length b.length (adjustLast 0 (c :: cs)) false
        0 0 hadj [] [] (Or.inl rfl)]
      rw [nonEqual_adjustLast]
      simp

theorem udiff_drop2 (a b : List String) :
    (unifiedDiff a b).drop 2 =
      (nonEqual (getOpcodes a b)).flatMap (fun c => hunkHeader c :: renderOpcode a b c) := by
  simp only [unifiedDiff]
  by_cases hg : groupedOpcodes 0 a b = []
  · rw [if_pos hg]
    have h := grouped_render a b
    rw [hg] at h
    exact h
  · rw [if_neg hg]
    exact grouped_render a b

theorem hunksOk_mono (a b : List String) (i j i2 j2 : Nat) (l : List Opcode)
    (h1 : i ≤ i2) (h2 : j ≤ j2) (h : HunksOk a b i2 j2 l) : HunksOk a b i j l := by
  cases l with
  | nil => exact trivial
  | cons c cs =>
    obtain ⟨hne, hi, hj, h12, h34, hla, hlb, hrep, hdel, hins, htail⟩ := h
    refine ⟨hne, le_trans h1 hi, le_trans h2 hj, h12, h34, hla, hlb, hrep, hdel, hins, htail⟩

theorem hunksOk_nonEqual (a b : List String) :
    ∀ cs i j (flag : Option Bool), CodesOk a b a.length b.length i j flag cs →
      HunksOk a b i j (nonEqual cs) := by
  intro cs
  induction cs with
  | nil =>
    intro i j flag _
    exact trivial
  | cons c cs2 ih =>
    intro i j flag h
    obtain ⟨hci, hcj, hla, hlb, hbranch⟩ := h
    rcases hbranch with ⟨hceq, _, hpos, hdiff, hmatch, hrest⟩ | ⟨hcne, _, hrep, hdel, hins, hrest⟩
    · rw [nonEqual_cons_eq _ hceq]
      exact hunksOk_mono a b i j c.i2 c.j2 _ (by omega) (by omega)
        (ih c.i2 c.j2 (some true) hrest)
    · rw [nonEqual_cons_ne _ hcne]
      have hle : c.i1 ≤ c.i2 ∧ c.j1 ≤ c.j2 := by
        cases hct : c.tag with
        | replace =>
          have hx := hrep hct
          omega
        | delete =>
          have hx := hdel hct
          omega
        | insert =>
          have hx := hins hct
          omega
        | equal => exact absurd hct hcne
      refine ⟨hcne, by omega, by omega, hle.1, hle.2, hla, hlb, hrep, hdel, hins, ?_⟩
      exact ih c.i2 c.j2 (some false) hrest

theorem parse_hunks (a b : List String) :
    ∀ (hunks : List Opcode) (i j : Nat), HunksOk a b i j hunks →
    ∀ (f1 f2 : Option Nat) (nl : List String) (nn : List Nat) (dl : List String)
      (dn : List Nat),
    parseUdiff (hunks.flatMap (fun c => hunkHeader c :: renderOpcode a b c)) f1 f2 nl nn dl dn =
      Except.ok (nl ++ (hunks.flatMap (addedOfOpcode b)).map Prod.fst,
        nn ++ (hunks.flatMap (addedOfOpcode b)).map Prod.snd,
        dn ++ hunks.flatMap deletedOfOpcode) := by
  intro hunks
  induction hunks with
  | nil =>
    intro i j _ f1 f2 nl nn dl dn
    simp [parseUdiff]
  | cons c hs ih =>
    intro i j h f1 f2 nl nn dl dn
    obtain ⟨hne, hi, hj, h12, h34, hla, hlb, hrep, hdel, hins, htail⟩ := h
    rw [List.flatMap_cons]
    obtain ⟨g1, g2, dl2, heq⟩ := parseUdiff_hunk a b c hne hrep hdel hins h12 h34 hla hlb
      (hs.flatMap (fun c => hunkHeader c :: renderOpcode a b c)) f1 f2 nl nn dl dn
    rw [heq]
    rw [ih c.i2 c.j2 htail g1 g2 _ _ dl2 _]
    simp [List.flatMap_cons, List.map_append, List.append_assoc]

theorem readlines_length (f : List String) : (readlines f).length = f.length := by
  simp [readlines]

theorem readlines_getD (f : List String) (t : Nat) (ht : t < f.length) :
    (readlines f).getD t "" = f.getD t "" ++ "\n" := by
  unfold readlines
  rw [List.getD_eq_getElem _ _ (by simpa using ht), List.getD_eq_getElem _ _ ht,
    List.getElem_map]

theorem findNew_eq (file1 file2 : List String) :
    findNewLinesAndDeletedIndices file1 file2 =
      Except.ok
        (((nonEqual (getOpcodes (readlines file1) (readlines file2))).flatMap
            (addedOfOpcode (readlines file2))).map Prod.fst,
         ((nonEqual (getOpcodes (readlines file1) (readlines file2))).flatMap
            (addedOfOpcode (readlines file2))).map Prod.snd,
         (nonEqual (getOpcodes (readlines file1) (readlines file2))).flatMap
            deletedOfOpcode) := by
  simp only [findNewLinesAndDeletedIndices]
  rw [udiff_drop2]
  have h := hunksOk_nonEqual (readlines file1) (readlines file2)
    (getOpcodes (readlines file1) (readlines file2)) 0 0 none
    (getOpcodes_ok (readlines file1) (readlines file2))
  rw [parse_hunks (readlines file1) (readlines file2) _ 0 0 h none none [] [] [] []]
  simp

theorem pairwise_lt_range1 : ∀ (n s : Nat), List.Pairwise (· < ·) (List.range' s n) := by
  intro n
  induction n with
  | zero =>
    intro s
    exact List.Pairwise.nil
  | succ m ih =>
    intro s
    rw [List.range'_succ]
    refine List.pairwise_cons.2 ⟨?_, ih (s + 1)⟩
    intro v hv
    have hv2 := List.mem_range'_1.1 hv
    omega

theorem addedNums_chain (a b : List String) :
    ∀ hunks i j, HunksOk a b i j hunks →
      List.Pairwise (· < ·) ((hunks.flatMap (addedOfOpcode b)).map Prod.snd) ∧
      ∀ v ∈ (hunks.flatMap (addedOfOpcode b)).map Prod.snd, j + 1 ≤ v ∧ v ≤ b.length := by
  intro hunks
  induction hunks with
  | nil =>
    intro i j _
    constructor
    · exact List.Pairwise.nil
    · intro v hv
      cases hv
  | cons c hs ih =>
    intro i j h
    obtain ⟨hne, hi, hj, h12, h34, hla, hlb, hrep, hdel, hins, htail⟩ := h
    obtain ⟨ihp, ihb⟩ := ih c.i2 c.j2 htail
    rw [List.flatMap_cons, List.map_append]
    have hsnd : (addedOfOpcode b c).map Prod.snd = List.range' (c.j1 + 1) (c.j2 - c.j1) ∨
        ((addedOfOpcode b c).map Prod.snd = [] ∧ c.j1 = c.j2) := by
      cases hct : c.tag with
      | equal => exact absurd hct hne
      | delete =>
        right
        constructor
        · simp [addedOfOpcode, hct]
        · exact (hdel hct).2
      | replace =>
        left
        simp [addedOfOpcode, hct, List.map_map, Function.comp_def, range'_map_succ]
      | insert =>
        left
        simp [addedOfOpcode, hct, List.map_map, Function.comp_def, range'_map_succ]
    rcases hsnd with hsnd | ⟨hsnd, hjj⟩
    · rw [hsnd]
      constructor
      · refine List.pairwise_append.2 ⟨pairwise_lt_range1 _ _, ihp, ?_⟩
        intro x hx y hy
        have hx2 := List.mem_range'_1.1 hx
        have hy2 := (ihb y hy).1
        omega
      · intro v hv
        rcases List.mem_append.1 hv with hv | hv
        · have hv2 := List.mem_range'_1.1 hv
          constructor
          · omega
          · omega
        · have hv2 := ihb v hv
          omega
    · rw [hsnd, List.nil_append]
      constructor
      · exact ihp
      · intro v hv
        have hv2 := ihb v hv
        omega

theorem delNums_chain (a b : List String) :
    ∀ hunks i j, HunksOk a b i j hunks →
      List.Pairwise (· < ·) (hunks.flatMap deletedOfOpcode) ∧
      ∀ v ∈ hunks.flatMap deletedOfOpcode, i + 1 ≤ v ∧ v ≤ a.length := by
  intro hunks
  induction hunks with
  | nil =>
    intro i j _
    constructor
    · exact List.Pairwise.nil
    · intro v hv
      cases hv
  | cons c hs ih =>
    intro i j h
    obtain ⟨hne, hi, hj, h12, h34, hla, hlb, hrep, hdel, hins, htail⟩ := h
    obtain ⟨ihp, ihb⟩ := ih c.i2 c.j2 htail
    rw [List.flatMap_cons]
    have hdels : deletedOfOpcode c = List.range' (c.i1 + 1) (c.i2 - c.i1) ∨
        (deletedOfOpcode c = [] ∧ c.i1 = c.i2) := by
      cases hct : c.tag with
      | equal => exact absurd hct hne
      | insert =>
        right
        constructor
        · simp [deletedOfOpcode, hct]
        · exact (hins hct).1
      | delete =>
        left
        simp [deletedOfOpcode, hct, range'_map_succ]
      | replace =>
        left
        simp [deletedOfOpcode, hct, range'_map_succ]
    rcases hdels with hdels | ⟨hdels, hii⟩
    · rw [hdels]
      constructor
      · refine List.pairwise_append.2 ⟨pairwise_lt_range1 _ _, ihp, ?_⟩
        intro x hx y hy
        have hx2 := List.mem_range'_1.1 hx
        have hy2 := (ihb y hy).1
        omega
      · intro v hv
        rcases List.mem_append.1 hv with hv | hv
        · have hv2 := List.mem_range'_1.1 hv
          constructor
          · omega
          · omega
        · have hv2 := ihb v hv
          omega
    · rw [hdels, List.nil_append]
      constructor
      · exact ihp
      · intro v hv
        have hv2 := ihb v hv
        omega

theorem addedPairs_mem (a b : List String) :
    ∀ hunks i j, HunksOk a b i j hunks →
      ∀ p ∈ hunks.flatMap (addedOfOpcode b), 1 ≤ p.2 ∧ p.2 ≤ b.length ∧
        p.1 = pySlice1m2 ("+" ++ b.getD (p.2 - 1) "") := by
  intro hunks
  induction hunks with
  | nil =>
    intro i j _ p hp
    cases hp
  | cons c hs ih =>
    intro i j h p hp
    obtain ⟨hne, hi, hj, h12, h34, hla, hlb, hrep, hdel, hins, htail⟩ := h
    rw [List.flatMap_cons, List.mem_append] at hp
    rcases hp with hp | hp
    · cases hct : c.tag with
      | equal => exact absurd hct hne
      | delete =>
        rw [show addedOfOpcode b c = [] from by simp [addedOfOpcode, hct]] at hp
        cases hp
      | replace =>
        simp only [addedOfOpcode, hct] at hp
        obtain ⟨t, ht, hpt⟩ := List.mem_map.1 hp
        have ht2 := List.mem_range'_1.1 ht
        subst hpt
        refine ⟨Nat.succ_le_succ (Nat.zero_le t), ?_, ?_⟩
        · show t + 1 ≤ b.length
          omega
        · show pySlice1m2 ("+" ++ b.getD t "") = pySlice1m2 ("+" ++ b.getD (t + 1 - 1) "")
          rw [Nat.add_sub_cancel]
      | insert =>
        simp only [addedOfOpcode, hct] at hp
        obtain ⟨t, ht, hpt⟩ := List.mem_map.1 hp
        have ht2 := List.mem_range'_1.1 ht
        subst hpt
        refine ⟨Nat.succ_le_succ (Nat.zero_le t), ?_, ?_⟩
        · show t + 1 ≤ b.length
          omega
        · show pySlice1m2 ("+" ++ b.getD t "") = pySlice1m2 ("+" ++ b.getD (t + 1 - 1) "")
          rw [Nat.add_sub_cancel]
    · exact ih c.i2 c.j2 htail p hp

theorem flatMap_addedOf_nonEqual (bl : List String) :
    ∀ cs, (nonEqual cs).flatMap (addedOfOpcode bl) = cs.flatMap (addedOfOpcode bl) := by
  intro cs
  induction cs with
  | nil => rfl
  | cons c cs2 ih =>
    by_cases hc : c.tag = Tag.equal
    · rw [nonEqual_cons_eq _ hc, List.flatMap_cons, ih,
        show addedOfOpcode bl c = [] from by simp [addedOfOpcode, hc], List.nil_append]
    · rw [nonEqual_cons_ne _ hc, List.flatMap_cons, List.flatMap_cons, ih]

theorem flatMap_deletedOf_nonEqual :
    ∀ cs : List Opcode,
      (nonEqual cs).flatMap deletedOfOpcode = cs.flatMap deletedOfOpcode := by
  intro cs
  induction cs with
  | nil => rfl
  | cons c cs2 ih =>
    by_cases hc : c.tag = Tag.equal
    · rw [nonEqual_cons_eq _ hc, List.flatMap_cons, ih,
        show deletedOfOpcode c = [] from by simp [deletedOfOpcode, hc], List.nil_append]
    · rw [nonEqual_cons_ne _ hc, List.flatMap_cons, List.flatMap_cons, ih]

/-- **C2 (amended).** On every pair of linkage files the call
`_findNewLinesAndDeletedIndices(file1, file2)` returns without error; the added
line texts and the added line numbers are positionally paired lists of equal
length; both line number lists are strictly increasing across hunks; every
added entry is the `line[1:-2]` truncation of the `+` diff line built from the
new-file line its one based number points at; every deleted number is a valid
one based position in the old file; and the two number lists are exactly the
per-opcode counter values of the underlying diff opcodes (an added line
advances only the new-file counter, a removed line only the old-file one). -/
theorem c2_amended_line_numbers (file1 file2 : List String) :
    ∃ added nums dels,
      findNewLinesAndDeletedIndices file1 file2 = Except.ok (added, nums, dels) ∧
      added.length = nums.length ∧
      List.Pairwise (· < ·) nums ∧
      List.Pairwise (· < ·) dels ∧
      (∀ pr ∈ added.zip nums, 1 ≤ pr.2 ∧ pr.2 ≤ file2.length ∧
        pr.1 = pySlice1m2 ("+" ++ (file2.getD (pr.2 - 1) "" ++ "\n"))) ∧
      (∀ v ∈ dels, 1 ≤ v ∧ v ≤ file1.length) ∧
      nums = ((getOpcodes (readlines file1) (readlines file2)).flatMap
        (addedOfOpcode (readlines file2))).map Prod.snd ∧
      dels = (getOpcodes (readlines file1) (readlines file2)).flatMap deletedOfOpcode := by
  have hh := hunksOk_nonEqual (readlines file1) (readlines file2)
    (getOpcodes (readlines file1) (readlines file2)) 0 0 none
    (getOpcodes_ok (readlines file1) (readlines file2))
  refine ⟨_, _, _, findNew_eq file1 file2, ?_, ?_, ?_, ?_, ?_, ?_, ?_⟩
  · simp
  · exact (addedNums_chain _ _ _ 0 0 hh).1
  · exact (delNums_chain _ _ _ 0 0 hh).1
  · intro pr hpr
    have hpr2 : pr ∈ (nonEqual (getOpcodes (readlines file1) (readlines file2))).flatMap
        (addedOfOpcode (readlines file2)) := by
      rw [List.zip_map'] at hpr
      obtain ⟨q, hq, hqe⟩ := List.mem_map.1 hpr
      have hqq : pr = q := by rw [← hqe]
      rw [hqq]
      exact hq
    have h3 := addedPairs_mem (readlines file1) (readlines file2) _ 0 0 hh pr hpr2
    rw [readlines_length] at h3
    refine ⟨h3.1, h3.2.1, ?_⟩
    rw [h3.2.2, readlines_getD file2 (pr.2 - 1) (by omega)]
  · intro v hv
    have h3 := (delNums_chain _ _ _ 0 0 hh).2 v hv
    rw [readlines_length] at h3
    exact ⟨by omega, h3.2⟩
  · rw [flatMap_addedOf_nonEqual]
  · rw [flatMap_deletedOf_nonEqual]

theorem mem_b2j_iff (b : List String) (x : String) (j : Nat) :
    j ∈ b2j b x ↔ j < b.length ∧ b.getD j "" = x ∧ b2j b x ≠ [] := by
  simp only [b2j]
  by_cases hpop : 200 ≤ b.length ∧ b.length / 100 + 1 <
      ((List.range b.length).filter fun j2 => b.getD j2 "" = x).length
  · rw [if_pos hpop]
    simp
  · rw [if_neg hpop]
    constructor
    · intro hj
      have hj2 := List.mem_filter.1 hj
      refine ⟨List.mem_range.1 hj2.1, by simpa using hj2.2, ?_⟩
      exact List.ne_nil_of_mem hj
    · intro ⟨h1, h2, _⟩
      exact List.mem_filter.2 ⟨List.mem_range.2 h1, by simpa using h2⟩

theorem b2j_sorted (b : List String) (x : String) :
    List.Pairwise (· < ·) (b2j b x) := by
  simp only [b2j]
  split
  · exact List.Pairwise.nil
  · exact List.Pairwise.sublist (List.filter_sublist _) (List.pairwise_lt_range b.length)

theorem chainDP_le_diag (a b : List String)
    (hagree : ∀ t, t < min a.length b.length → a.getD t "" = b.getD t "") :
    ∀ i j, i < a.length → chainDP a b i j ≤ chainDP a b (min i j) (min i j) := by
  intro i
  induction i with
  | zero =>
    intro j hi
    by_cases hg : j ∈ b2j b (a.getD 0 "")
    · have hj := (mem_b2j_iff b _ j).1 hg
      rw [show min 0 j = 0 by omega]
      have h00 : (0 : Nat) ∈ b2j b (a.getD 0 "") := by
        rw [mem_b2j_iff]
        have hb0 : b.getD 0 "" = a.getD 0 "" := (hagree 0 (by omega)).symm
        exact ⟨by omega, hb0, hj.2.2⟩
      simp only [chainDP]
      rw [if_pos hg, if_pos h00]
    · simp only [chainDP]
      rw [if_neg hg]
      exact Nat.zero_le _
  | succ i0 ih =>
    intro j hi
    by_cases hg : j ∈ b2j b (a.getD (i0 + 1) "")
    · have hj := (mem_b2j_iff b _ j).1 hg
      cases j with
      | zero =>
        rw [show min (i0 + 1) 0 = 0 from rfl]
        have hv : a.getD 0 "" = a.getD (i0 + 1) "" := by
          rw [hagree 0 (by omega)]
          exact hj.2.1
        have h00 : (0 : Nat) ∈ b2j b (a.getD 0 "") := by
          rw [hv, mem_b2j_iff]
          exact ⟨by omega, hj.2.1, hj.2.2⟩
        simp only [chainDP]
        rw [if_pos hg, if_pos h00]
      | succ j0 =>
        have hij : min (i0 + 1) (j0 + 1) = min i0 j0 + 1 := by omega
        rw [hij]
        have hIH := ih j0 (by omega)
        set n0 := min i0 j0 with hn0
        have hn0m : n0 + 1 < min a.length b.length := by
          have hjb := hj.1
          omega
        have hvachain : a.getD (n0 + 1) "" = a.getD (i0 + 1) "" := by
          rcases Nat.lt_or_ge j0 i0 with hlt | hge
          · have hne : n0 = j0 := by omega
            rw [hne, hagree (j0 + 1) (by omega)]
            exact hj.2.1
          · have hne : n0 = i0 := by omega
            rw [hne]
        have hgd : (n0 + 1) ∈ b2j b (a.getD (n0 + 1) "") := by
          rw [hvachain, mem_b2j_iff]
          refine ⟨by omega, ?_, hj.2.2⟩
          rw [← hagree (n0 + 1) hn0m]
          exact hvachain
        rw [show chainDP a b (i0 + 1) (j0 + 1) = chainDP a b i0 j0 + 1 from by
          simp only [chainDP]
          rw [if_pos hg]]
        rw [show chainDP a b (n0 + 1) (n0 + 1) = chainDP a b n0 n0 + 1 from by
          simp only [chainDP]
          rw [if_pos hgd]]
        omega
    · simp only [chainDP]
      rw [if_neg hg]
      exact Nat.zero_le _

theorem flmInner_diag (a b : List String) (i : Nat) (prev : Nat → Nat)
    (hk : ∀ j, j ∈ b2j b (a.getD i "") →
      (match j with | 0 => 0 | j0 + 1 => prev j0) + 1 = chainDP a b i j)
    (hbig : ∀ j, i < j → chainDP a b i j ≤ chainDP a b i i) :
    ∀ (js : List Nat) (cur : Nat → Nat) (best : FLM),
      (∀ j ∈ js, j ∈ b2j b (a.getD i "")) →
      List.Pairwise (· < ·) js →
      best.besti = best.bestj →
      (∀ j ∈ js, j < i → chainDP a b i j ≤ best.bestsize) →
      (i ∈ js ∨ chainDP a b i i ≤ best.bestsize) →
      (flmInner 0 b.length i prev js cur best).2.besti =
        (flmInner 0 b.length i prev js cur best).2.bestj ∧
      best.bestsize ≤ (flmInner 0 b.length i prev js cur best).2.bestsize ∧
      chainDP a b i i ≤ (flmInner 0 b.length i prev js cur best).2.bestsize ∧
      ∀ j2, (flmInner 0 b.length i prev js cur best).1 j2 =
        if j2 ∈ js then chainDP a b i j2 else cur j2 := by
  intro js
  induction js with
  | nil =>
    intro cur best hsub hsort hdiag hsmall hflag
    simp only [flmInner]
    refine ⟨hdiag, le_rfl, ?_, ?_⟩
    · rcases hflag with h | h
      · cases h
      · exact h
    · intro j2
      simp
  | cons j t ih =>
    intro cur best hsub hsort hdiag hsmall hflag
    have hgj : j ∈ b2j b (a.getD i "") := hsub j (List.mem_cons_self _ _)
    have hjlt : j < b.length := ((mem_b2j_iff b _ j).1 hgj).1
    have hkval := hk j hgj
    have htgt : ∀ j2 ∈ t, j < j2 := (List.pairwise_cons.1 hsort).1
    simp only [flmInner]
    rw [if_neg (by omega : ¬j < 0), if_neg (by omega : ¬b.length ≤ j), hkval]
    by_cases hup : best.bestsize < chainDP a b i j
    · rw [if_pos hup]
      have hji : j = i := by
        rcases Nat.lt_trichotomy j i with hlt | heq | hgt
        · have hc := hsmall j (List.mem_cons_self _ _) hlt
          omega
        · exact heq
        · have hni : i ∉ j :: t := by
            intro hmem
            rcases List.mem_cons.1 hmem with rfl | hmem
            · omega
            · have hc := htgt i hmem
              omega
          rcases hflag with h | h
          · exact absurd h hni
          · have hc := hbig j hgt
            omega
      subst hji
      have hres := ih (fun j1 => if j1 = j then chainDP a b j j else cur j1)
        (FLM.mk (j + 1 - chainDP a b j j) (j + 1 - chainDP a b j j) (chainDP a b j j))
        (fun j2 hj2 => hsub j2 (List.mem_cons_of_mem _ hj2))
        (List.pairwise_cons.1 hsort).2
        rfl
        (by
          intro j2 hj2 hj2i
          have hc := htgt j2 hj2
          omega)
        (Or.inr le_rfl)
      obtain ⟨hr1, hr2, hr3, hr4⟩ := hres
      refine ⟨hr1, le_trans (le_of_lt hup) hr2, hr3, ?_⟩
      intro j2
      rw [hr4 j2]
      by_cases hj2t : j2 ∈ t
      · rw [if_pos hj2t, if_pos (List.mem_cons_of_mem _ hj2t)]
      · by_cases hj2j : j2 = j
        · subst hj2j
          simp [hj2t]
        · simp [hj2t, hj2j]
    · rw [if_neg hup]
      have hres := ih (fun j1 => if j1 = j then chainDP a b i j else cur j1) best
        (fun j2 hj2 => hsub j2 (List.mem_cons_of_mem _ hj2))
        (List.pairwise_cons.1 hsort).2
        hdiag
        (fun j2 hj2 hj2i => hsmall j2 (List.mem_cons_of_mem _ hj2) hj2i)
        (by
          rcases hflag with h | h
          · rcases List.mem_cons.1 h with h2 | h2
            · right
              rw [← h2] at hup
              omega
            · exact Or.inl h2
          · exact Or.inr h)
      obtain ⟨hr1, hr2, hr3, hr4⟩ := hres
      refine ⟨hr1, hr2, hr3, ?_⟩
      intro j2
      rw [hr4 j2]
      by_cases hj2t : j2 ∈ t
      · rw [if_pos hj2t, if_pos (List.mem_cons_of_mem _ hj2t)]
      · by_cases hj2j : j2 = j
        · subst hj2j
          simp [hj2t]
        · simp [hj2t, hj2j]

theorem flmOuter_diag (a b : List String)
    (hagree : ∀ t, t < min a.length b.length → a.getD t "" = b.getD t "") :
    ∀ (cnt i0 : Nat) (j2len : Nat → Nat) (best : FLM),
      i0 + cnt ≤ a.length →
      (∀ j, j2len j = (match i0 with | 0 => 0 | i1 + 1 => chainDP a b i1 j)) →
      best.besti = best.bestj →
      (∀ r, r < i0 → chainDP a b r r ≤ best.bestsize) →
      (flmOuter (b2j b) a 0 b.length (List.range' i0 cnt) j2len best).besti =
        (flmOuter (b2j b) a 0 b.length (List.range' i0 cnt) j2len best).bestj := by
  intro cnt
  induction cnt with
  | zero =>
    intro i0 j2len best hle hprev hdiag hI2
    simpa [flmOuter, List.range'_zero] using hdiag
  | succ n ih =>
    intro i0 j2len best hle hprev hdiag hI2
    rw [List.range'_succ]
    simp only [flmOuter]
    have hk : ∀ j, j ∈ b2j b (a.getD i0 "") →
        (match j with | 0 => 0 | j0 + 1 => j2len j0) + 1 = chainDP a b i0 j := by
      intro j hj
      cases i0 with
      | zero =>
        cases j with
        | zero =>
          simp only [chainDP]
          rw [if_pos hj]
        | succ j0 =>
          show j2len j0 + 1 = chainDP a b 0 (j0 + 1)
          rw [hprev j0]
          simp only [chainDP]
          rw [if_pos hj]
      | succ i1 =>
        cases j with
        | zero =>
          simp only [chainDP]
          rw [if_pos hj]
        | succ j0 =>
          show j2len j0 + 1 = chainDP a b (i1 + 1) (j0 + 1)
          rw [hprev j0]
          simp only [chainDP]
          rw [if_pos hj]
    have hbig : ∀ j, i0 < j → chainDP a b i0 j ≤ chainDP a b i0 i0 := by
      intro j hj
      have h := chainDP_le_diag a b hagree i0 j (by omega)
      rw [show min i0 j = i0 by omega] at h
      exact h
    have hres := flmInner_diag a b i0 j2len hk hbig (b2j b (a.getD i0 "")) (fun _ => 0) best
      (fun j hj => hj)
      (b2j_sorted b _)
      hdiag
      (by
        intro j hj hji
        have h := chainDP_le_diag a b hagree i0 j (by omega)
        rw [show min i0 j = j by omega] at h
        exact le_trans h (hI2 j hji))
      (by
        by_cases hmem : i0 ∈ b2j b (a.getD i0 "")
        · exact Or.inl hmem
        · right
          have hz : chainDP a b i0 i0 = 0 := by
            cases i0 with
            | zero =>
              simp only [chainDP]
              rw [if_neg hmem]
            | succ i1 =>
              simp only [chainDP]
              rw [if_neg hmem]
          rw [hz]
          exact Nat.zero_le _)
    obtain ⟨hr1, hr2, hr3, hr4⟩ := hres
    apply ih (i0 + 1) _ _ (by omega) ?_ hr1 ?_
    · intro j
      rw [hr4 j]
      by_cases hmem : j ∈ b2j b (a.getD i0 "")
      · rw [if_pos hmem]
      · rw [if_neg hmem]
        cases i0 with
        | zero =>
          simp only [chainDP]
          rw [if_neg hmem]
        | succ i1 =>
          simp only [chainDP]
          rw [if_neg hmem]
    · intro r hr
      rcases Nat.lt_or_ge r i0 with h | h
      · exact le_trans (hI2 r h) hr2
      · have hri : r = i0 := by omega
        subst hri
        exact hr3

theorem extendBack_diag (a b : List String)
    (hagree : ∀ t, t < min a.length b.length → a.getD t "" = b.getD t "") :
    ∀ (d s : Nat), d + s ≤ min a.length b.length →
      extendBack a b 0 0 d (FLM.mk d d s) = FLM.mk 0 0 (d + s) := by
  intro d
  induction d with
  | zero =>
    intro s hs
    simp only [extendBack]
    rw [Nat.zero_add]
  | succ d0 ih =>
    intro s hs
    simp only [extendBack]
    rw [if_pos ⟨Nat.succ_pos d0, Nat.succ_pos d0, by
      show a.getD (d0 + 1 - 1) "" = b.getD (d0 + 1 - 1) ""
      rw [Nat.add_sub_cancel]
      exact hagree d0 (by omega)⟩]
    have hstep := ih (s + 1) (by omega)
    rw [show (d0 + 1 - 1) = d0 from by omega]
    rw [hstep]
    congr 1
    omega

theorem extendFwd_diag (a b : List String)
    (hagree : ∀ t, t < min a.length b.length → a.getD t "" = b.getD t "") :
    ∀ (fuel s : Nat), s ≤ min a.length b.length → min a.length b.length - s ≤ fuel →
      extendFwd a b a.length b.length fuel (FLM.mk 0 0 s) =
        FLM.mk 0 0 (min a.length b.length) := by
  intro fuel
  induction fuel with
  | zero =>
    intro s h1 h2
    simp only [extendFwd]
    rw [show s = min a.length b.length by omega]
  | succ f ih =>
    intro s h1 h2
    simp only [extendFwd]
    by_cases hlt : s < min a.length b.length
    · rw [if_pos ⟨by show 0 + s < a.length; omega, by show 0 + s < b.length; omega, by
        show a.getD (0 + s) "" = b.getD (0 + s) ""
        rw [Nat.zero_add]
        exact hagree s hlt⟩]
      exact ih (s + 1) (by omega) (by omega)
    · rw [if_neg (by
        intro hcond
        have h3 : 0 + s < a.length := hcond.1
        have h4 : 0 + s < b.length := hcond.2.1
        omega)]
      rw [show s = min a.length b.length by omega]

theorem extensions_diag (a b : List String)
    (hagree : ∀ t, t < min a.length b.length → a.getD t "" = b.getD t "") (m : FLM)
    (hd : m.besti = m.bestj) (hle : m.bestj + m.bestsize ≤ min a.length b.length) :
    extendFwd a b a.length b.length a.length (extendBack a b 0 0 m.besti m) =
      FLM.mk 0 0 (min a.length b.length) := by
  have hmeta : FLM.mk m.besti m.bestj m.bestsize = m := rfl
  rw [hd] at hmeta
  have hback := extendBack_diag a b hagree m.bestj m.bestsize (by omega)
  rw [hmeta] at hback
  rw [hd, hback]
  exact extendFwd_diag a b hagree a.length (m.bestj + m.bestsize) (by omega) (by omega)

theorem flm_agreeing (a b : List String)
    (hagree : ∀ t, t < min a.length b.length → a.getD t "" = b.getD t "") :
    findLongestMatch a b 0 a.length 0 b.length = FLM.mk 0 0 (min a.length b.length) := by
  simp only [findLongestMatch]
  have hdiag : (flmOuter (b2j b) a 0 b.length (List.range' 0 (a.length - 0))
      (fun _ => 0) (FLM.mk 0 0 0)).besti =
      (flmOuter (b2j b) a 0 b.length (List.range' 0 (a.length - 0))
      (fun _ => 0) (FLM.mk 0 0 0)).bestj := by
    apply flmOuter_diag a b hagree (a.length - 0) 0 _ _ (by omega)
    · intro j
      rfl
    · rfl
    · intro r hr
      exact absurd hr (Nat.not_lt_zero r)
  have hinv := flmOuter_inv a b 0 a.length 0 b.length (a.length - 0) 0 (fun _ => 0)
    (FLM.mk 0 0 0) le_rfl le_rfl
    (by
      intro j hj
      exact absurd rfl hj)
    (by
      refine ⟨le_rfl, le_rfl, ?_, ?_, ?_⟩
      · show 0 + 0 ≤ max 0 a.length
        omega
      · show 0 + 0 ≤ max 0 b.length
        omega
      · intro t ht
        exact absurd ht (Nat.not_lt_zero t))
  obtain ⟨_, _, h3, h4, _⟩ := hinv
  exact extensions_diag a b hagree _ hdiag (by omega)

theorem gmbFuel_nil (a b : List String) : ∀ fuel acc, gmbFuel a b fuel [] acc = acc := by
  intro fuel acc
  cases fuel with
  | zero => rfl
  | succ n => rfl

theorem raw_agreeing (a b : List String)
    (hagree : ∀ t, t < min a.length b.length → a.getD t "" = b.getD t "")
    (hm : 0 < min a.length b.length) :
    gmbFuel a b (a.length + b.length + 1) [(0, a.length, 0, b.length)] [] =
      [Blk.mk 0 0 (min a.length b.length)] := by
  simp only [gmbFuel]
  rw [flm_agreeing a b hagree]
  rw [if_pos (show (FLM.mk 0 0 (min a.length b.length)).bestsize ≠ 0 from by
    show min a.length b.length ≠ 0
    omega)]
  rw [if_neg (show ¬(0 < (FLM.mk 0 0 (min a.length b.length)).besti ∧
      0 < (FLM.mk 0 0 (min a.length b.length)).bestj) from fun h => by
    have h1 : (0 : Nat) < 0 := h.1
    omega)]
  rw [if_neg (show ¬((FLM.mk 0 0 (min a.length b.length)).besti +
      (FLM.mk 0 0 (min a.length b.length)).bestsize < a.length ∧
      (FLM.mk 0 0 (min a.length b.length)).bestj +
      (FLM.mk 0 0 (min a.length b.length)).bestsize < b.length) from fun h => by
    have h1 : 0 + min a.length b.length < a.length := h.1
    have h2 : 0 + min a.length b.length < b.length := h.2
    omega)]
  rw [gmbFuel_nil]
  rfl

theorem blocks_agreeing_pos (a b : List String)
    (hagree : ∀ t, t < min a.length b.length → a.getD t "" = b.getD t "")
    (hm : 0 < min a.length b.length) :
    getMatchingBlocks a b =
      [Blk.mk 0 0 (min a.length b.length), Blk.mk a.length b.length 0] := by
  simp only [getMatchingBlocks]
  rw [raw_agreeing a b hagree hm]
  rw [show List.insertionSort blkLE [Blk.mk 0 0 (min a.length b.length)] =
    [Blk.mk 0 0 (min a.length b.length)] from rfl]
  simp only [mergeAdj]
  rw [if_pos (⟨trivial, trivial⟩ : True ∧ True)]
  rw [if_pos (show 0 + min a.length b.length ≠ 0 by omega)]
  rw [show (0 : Nat) + min a.length b.length = min a.length b.length by omega]
  rfl

theorem blocks_agreeing_zero (a b : List String) (hm : min a.length b.length = 0) :
    getMatchingBlocks a b = [Blk.mk a.length b.length 0] := by
  simp only [getMatchingBlocks]
  rw [show gmbFuel a b (a.length + b.length + 1) [(0, a.length, 0, b.length)] [] = []
      from ?_]
  · rfl
  · simp only [gmbFuel]
    rw [flm_agreeing a b (by
      intro t ht
      exact absurd ht (by omega))]
    rw [if_neg (show ¬(FLM.mk 0 0 (min a.length b.length)).bestsize ≠ 0 from by
      show ¬min a.length b.length ≠ 0
      omega)]
    exact gmbFuel_nil a b _ []

theorem nonEqual_codes_agreeing (a b : List String)
    (hagree : ∀ t, t < min a.length b.length → a.getD t "" = b.getD t "") :
    nonEqual (getOpcodes a b) =
      (if a.length < b.length then [Opcode.mk Tag.insert a.length a.length a.length b.length]
       else if b.length < a.length then
        [Opcode.mk Tag.delete b.length a.length b.length b.length]
       else []) := by
  rcases Nat.lt_trichotomy a.length b.length with hlt | heq | hgt
  · rw [if_pos hlt]
    by_cases hpos : 0 < a.length
    · have hmin : min a.length b.length = a.length := by omega
      have hne : a.length ≠ 0 := by omega
      simp only [getOpcodes]
      rw [blocks_agreeing_pos a b hagree (by omega), hmin]
      simp [getOpcodesGo, nonEqual, hne, hlt, Nat.lt_irrefl]
    · have h0 : a.length = 0 := by omega
      have hmin : min a.length b.length = 0 := by omega
      simp only [getOpcodes]
      rw [blocks_agreeing_zero a b hmin]
      have hbpos : 0 < b.length := by omega
      simp [getOpcodesGo, nonEqual, h0, hbpos]
  · rw [if_neg (by omega), if_neg (by omega)]
    by_cases hpos : 0 < a.length
    · have hmin : min a.length b.length = a.length := by omega
      have hne : a.length ≠ 0 := by omega
      simp only [getOpcodes]
      rw [blocks_agreeing_pos a b hagree (by omega), hmin]
      simp [getOpcodesGo, nonEqual, hne, ← heq, Nat.lt_irrefl]
    · have hmin : min a.length b.length = 0 := by omega
      simp only [getOpcodes]
      rw [blocks_agreeing_zero a b hmin]
      simp [getOpcodesGo, nonEqual, show a.length = 0 by omega, show b.length = 0 by omega]
  · rw [if_neg (by omega), if_pos hgt]
    by_cases hpos : 0 < b.length
    · have hmin : min a.length b.length = b.length := by omega
      have hne : b.length ≠ 0 := by omega
      simp only [getOpcodes]
      rw [blocks_agreeing_pos a b hagree (by omega), hmin]
      simp [getOpcodesGo, nonEqual, hne, hgt, Nat.lt_irrefl]
    · have hmin : min a.length b.length = 0 := by omega
      simp only [getOpcodes]
      rw [blocks_agreeing_zero a b hmin]
      simp [getOpcodesGo, nonEqual, show b.length = 0 by omega, hgt,
        show 0 < a.length by omega]

theorem range'_map_getD (d : String) :
    ∀ (l : List String) (p : Nat) (f : String → String),
      (List.range' p l.length).map (fun t => f (l.getD (t - p) d)) = l.map f := by
  intro l
  induction l with
  | nil =>
    intro p f
    rfl
  | cons hd tl ih =>
    intro p f
    rw [show (hd :: tl).length = tl.length + 1 from rfl, List.range'_succ, List.map_cons,
      List.map_cons]
    congr 1
    · rw [Nat.sub_self]
      rfl
    · rw [← ih (p + 1) f]
      apply List.map_congr_left
      intro t ht
      have ht2 := List.mem_range'_1.1 ht
      have he : t - p = (t - (p + 1)) + 1 := by omega
      rw [he]
      rfl

theorem findNew_append (old s : List String) :
    findNewLinesAndDeletedIndices old (old ++ s) =
      Except.ok (s.map (fun line => pySlice1m2 ("+" ++ (line ++ "\n"))),
        List.range' (old.length + 1) s.length, ([] : List Nat)) := by
  rw [findNew_eq]
  have hla : (readlines old).length = old.length := readlines_length old
  have hlb : (readlines (old ++ s)).length = old.length + s.length := by
    rw [readlines_length, List.length_append]
  have hagree : ∀ t, t < min (readlines old).length (readlines (old ++ s)).length →
      (readlines old).getD t "" = (readlines (old ++ s)).getD t "" := by
    intro t ht
    rw [hla, hlb] at ht
    have ht2 : t < old.length := by omega
    rw [readlines_getD old t ht2, readlines_getD (old ++ s) t (by
      rw [List.length_append]
      omega)]
    congr 1
    rw [List.getD_eq_getElem _ _ ht2, List.getD_eq_getElem _ _ (show t < (old ++ s).length by
      rw [List.length_append]
      omega)]
    exact (List.getElem_append_left ht2).symm
  rw [nonEqual_codes_agreeing _ _ hagree]
  by_cases hs : s.length = 0
  · rw [if_neg (by rw [hla, hlb]; omega), if_neg (by rw [hla, hlb]; omega)]
    have hsnil : s = [] := List.length_eq_zero.1 hs
    subst hsnil
    simp
  · rw [if_pos (by rw [hla, hlb]; omega)]
    rw [hla, hlb]
    simp only [List.flatMap_cons, List.flatMap_nil, List.append_nil]
    rw [show addedOfOpcode (readlines (old ++ s)) (Opcode.mk Tag.insert old.length old.length
        old.length (old.length + s.length)) = (List.range' old.length (old.length + s.length -
        old.length)).map (fun j => (pySlice1m2 ("+" ++ (readlines (old ++ s)).getD j ""), j + 1))
      from by simp [addedOfOpcode]]
    rw [show old.length + s.length - old.length = s.length by omega]
    have hmemb : ∀ j ∈ List.range' old.length s.length,
        (readlines (old ++ s)).getD j "" = s.getD (j - old.length) "" ++ "\n" := by
      intro j hj
      have hj2 := List.mem_range'_1.1 hj
      rw [readlines_getD (old ++ s) j (by
        rw [List.length_append]
        omega)]
      congr 1
      rw [List.getD_eq_getElem _ _ (show j < (old ++ s).length by
        rw [List.length_append]
        omega), List.getD_eq_getElem _ _ (show j - old.length < s.length by omega)]
      exact List.getElem_append_right (by omega)
    have hfst : ((List.range' old.length s.length).map (fun j =>
        (pySlice1m2 ("+" ++ (readlines (old ++ s)).getD j ""), j + 1))).map Prod.fst =
        s.map (fun line => pySlice1m2 ("+" ++ (line ++ "\n"))) := by
      rw [List.map_map]
      rw [List.map_congr_left (g := fun j =>
        pySlice1m2 ("+" ++ (s.getD (j - old.length) "" ++ "\n"))) (by
        intro j hj
        show pySlice1m2 ("+" ++ (readlines (old ++ s)).getD j "") =
          pySlice1m2 ("+" ++ (s.getD (j - old.length) "" ++ "\n"))
        rw [hmemb j hj])]
      exact range'_map_getD "" s old.length (fun line => pySlice1m2 ("+" ++ (line ++ "\n")))
    have hsnd : ((List.range' old.length s.length).map (fun j =>
        (pySlice1m2 ("+" ++ (readlines (old ++ s)).getD j ""), j + 1))).map Prod.snd =
        List.range' (old.length + 1) s.length := by
      rw [List.map_map]
      rw [show (Prod.snd ∘ fun j =>
        (pySlice1m2 ("+" ++ (readlines (old ++ s)).getD j ""), j + 1)) = fun j => j + 1
        from rfl]
      rw [range'_map_succ]
    rw [hfst, hsnd]
    rw [show deletedOfOpcode (Opcode.mk Tag.insert old.length old.length old.length
      (old.length + s.length)) = [] from by simp [deletedOfOpcode]]

theorem findNew_delete (new s : List String) :
    findNewLinesAndDeletedIndices (new ++ s) new =
      Except.ok (([] : List String), ([] : List Nat),
        List.range' (new.length + 1) s.length) := by
  rw [findNew_eq]
  have hla : (readlines (new ++ s)).length = new.length + s.length := by
    rw [readlines_length, List.length_append]
  have hlb : (readlines new).length = new.length := readlines_length new
  have hagree : ∀ t, t < min (readlines (new ++ s)).length (readlines new).length →
      (readlines (new ++ s)).getD t "" = (readlines new).getD t "" := by
    intro t ht
    rw [hla, hlb] at ht
    have ht2 : t < new.length := by omega
    rw [readlines_getD new t ht2, readlines_getD (new ++ s) t (by
      rw [List.length_append]
      omega)]
    congr 1
    rw [List.getD_eq_getElem _ _ ht2, List.getD_eq_getElem _ _ (show t < (new ++ s).length by
      rw [List.length_append]
      omega)]
    exact List.getElem_append_left ht2
  rw [nonEqual_codes_agreeing _ _ hagree]
  by_cases hs : s.length = 0
  · rw [if_neg (by rw [hla, hlb]; omega), if_neg (by rw [hla, hlb]; omega)]
    have hsnil : s = [] := List.length_eq_zero.1 hs
    subst hsnil
    simp
  · rw [if_neg (by rw [hla, hlb]; omega), if_pos (by rw [hla, hlb]; omega)]
    rw [hla, hlb]
    simp only [List.flatMap_cons, List.flatMap_nil, List.append_nil]
    rw [show addedOfOpcode (readlines new) (Opcode.mk Tag.delete new.length
      (new.length + s.length) new.length new.length) = [] from by simp [addedOfOpcode]]
    rw [show deletedOfOpcode (Opcode.mk Tag.delete new.length (new.length + s.length)
        new.length new.length) =
      (List.range' new.length (new.length + s.length - new.length)).map (· + 1) from by
      simp [deletedOfOpcode]]
    rw [show new.length + s.length - new.length = s.length by omega, range'_map_succ]
    rfl

/-- **C3 (amended).** When the new file is the old file with a suffix of lines
appended, the call reports no deletions, addedLineNumbers are exactly the one
based positions of the appended lines, and each added line text is the
`line[1:-2]` truncation of the corresponding `+` diff line (the final content
character is lost to the slice because the trailing newline occupies only one
of the two stripped positions); symmetrically, when the new file is the old
file with a suffix of lines removed, nothing is reported as added and
deletedLineNumbers are exactly the one based positions of the removed lines. -/
theorem c3_amended_pure_append_delete :
    (∀ old s : List String,
      findNewLinesAndDeletedIndices old (old ++ s) =
        Except.ok (s.map (fun line => pySlice1m2 ("+" ++ (line ++ "\n"))),
          List.range' (old.length + 1) s.length, ([] : List Nat))) ∧
    (∀ new s : List String,
      findNewLinesAndDeletedIndices (new ++ s) new =
        Except.ok (([] : List String), ([] : List Nat),
          List.range' (new.length + 1) s.length)) :=
  ⟨findNew_append, findNew_delete⟩

end AnalyzeMOPS
